import Mathlib

/-!
Verification development for the `roam-block-reconciler` library.

The library reconciles a caller-supplied list of source items against a tree
of blocks held by an external backend (Roam).  The two engines are
`BlockReconciler.reconcile` (top-level items, in `src/block-reconciler.ts`)
and `ChildrenReconciler.syncChildren` (per-node property children, in
`src/children-reconciler.ts`).  This file gives a shallow embedding of both
engines: the backend is modelled as a tree of nodes plus a trace of issued
operations, every awaited backend call is a step that can fail according to
an explicit failure oracle, and the engines are translated statement by
statement from the TypeScript source.
-/

/-- Desired-state description of a block (`BlockPayload` in `src/types.ts`):
a text and an optional list of child payloads.  The optional list is kept as
an `Option` because JavaScript distinguishes an absent `children` field from
an empty array (an empty array is truthy, `undefined` is not). -/
inductive BlockPayload where
  | mk (text : String) (children : Option (List BlockPayload))
deriving Repr

/-- A block node in the backend tree (`RoamNode` in `src/types.ts`):
text, an opaque uid, and an optional list of child nodes. -/
inductive RoamNode where
  | mk (text : String) (uid : String) (children : Option (List RoamNode))
deriving Repr

def BlockPayload.text : BlockPayload → String
  | .mk t _ => t

def BlockPayload.children : BlockPayload → Option (List BlockPayload)
  | .mk _ c => c

def RoamNode.text : RoamNode → String
  | .mk t _ _ => t

def RoamNode.uid : RoamNode → String
  | .mk _ u _ => u

def RoamNode.children : RoamNode → Option (List RoamNode)
  | .mk _ _ c => c

/-- Top-level sync statistics (`SyncStats` in `src/types.ts`). -/
structure SyncStats where
  total : Nat
  skipped : Nat
  created : Nat
  updated : Nat
  deleted : Nat
deriving Repr, DecidableEq

/-- Property-children sync statistics (`ChildSyncStats` in
`src/children-reconciler.ts`); it has no `total` field. -/
structure ChildSyncStats where
  skipped : Nat
  updated : Nat
  created : Nat
  deleted : Nat
deriving Repr, DecidableEq

/-- One operation issued to the backend adapter, or a pacing suspension.
`create`, `update` and `delete` correspond to the `RoamApiAdapter` calls
`createBlock`, `updateBlock` and `deleteBlock`; `delay ms` records an
awaited `delay(ms)` pacing suspension (`src/utils.ts`). -/
inductive Op where
  | create (parentUid : String) (payload : BlockPayload)
  | update (uid : String) (text : String)
  | delete (uid : String)
  | delay (ms : Nat)
deriving Repr

/-- Whether an `Op` is a backend mutation (everything except a pacing delay). -/
def Op.isMut : Op → Bool
  | .delay _ => false
  | _ => true

/-- Number of backend mutations in a trace. -/
def mutCount (t : List Op) : Nat :=
  (t.filter Op.isMut).length

/-- Default delay between backend mutations (`DEFAULT_MUTATION_DELAY_MS`,
`src/utils.ts`). -/
def DEFAULT_MUTATION_DELAY_MS : Nat := 100

/-- JavaScript truthiness of a `string | undefined` value: both `undefined`
and the empty string are falsy.  `buildExistingMap` and `syncChildren` guard
map insertion with `if (id)` / `if (key)`, which is this check. -/
def truthy : Option String → Option String
  | some s => if s = "" then none else some s
  | none => none

/-- Insertion-ordered association list modelling a JavaScript `Map` with
string keys: `set` on a present key overwrites in place, otherwise appends. -/
def mapSet {α : Type} : List (String × α) → String → α → List (String × α)
  | [], k, v => [(k, v)]
  | (k', v') :: rest, k, v =>
    if k' = k then (k, v) :: rest else (k', v') :: mapSet rest k v

/-- `Map.get`: first (and, by construction, only) binding of a key. -/
def mapGet {α : Type} : List (String × α) → String → Option α
  | [], _ => none
  | (k', v') :: rest, k => if k' = k then some v' else mapGet rest k

/-- `Map.delete`: drop the binding of a key. -/
def mapDelete {α : Type} : List (String × α) → String → List (String × α)
  | [], _ => []
  | (k', v') :: rest, k =>
    if k' = k then rest else (k', v') :: mapDelete rest k

mutual

/-- `BlockReconciler.isChildUnchanged`: a child node is unchanged w.r.t. a
child payload iff the texts agree and the (absent-as-empty) child lists are
pairwise recursively unchanged.  The uid takes no part in the comparison. -/
def isChildUnchanged (existing : RoamNode) (newChild : BlockPayload) : Bool :=
  match existing, newChild with
  | .mk t _ c, .mk t2 c2 =>
    if t ≠ t2 then false
    else isOptChildrenUnchanged c c2

/-- The `existing.children ?? []` / `newChild.children ?? []` normalisation
of the source, fused with the length comparison and the pairwise loop:
an absent child list compares like an empty one. -/
def isOptChildrenUnchanged : Option (List RoamNode) → Option (List BlockPayload) → Bool
  | none, none => true
  | none, some l => l.isEmpty
  | some l, none => l.isEmpty
  | some l, some l2 => isListChildrenUnchanged l l2

/-- The source's `length` check plus indexed loop over child pairs:
equal lengths and every pair recursively unchanged. -/
def isListChildrenUnchanged : List RoamNode → List BlockPayload → Bool
  | [], [] => true
  | _ :: _, [] => false
  | [], _ :: _ => false
  | n :: ns, p :: ps => isChildUnchanged n p && isListChildrenUnchanged ns ps

end

/-- `BlockReconciler.isUnchanged`: same comparison as `isChildUnchanged`
(the source duplicates the body at top level: text equality, then
`?? []`-normalised length check, then the pairwise recursive loop). -/
def isUnchanged (existing : RoamNode) (newBlock : BlockPayload) : Bool :=
  if existing.text ≠ newBlock.text then false
  else isOptChildrenUnchanged existing.children newBlock.children

/-- Modelled from the spec: structural equality between an existing node and
a payload, exactly as the specification words it — `text` strings identical,
children sequences of equal length with each child pair recursively equal by
the same rule, absent child lists treated as empty, uids ignored, no depth
limit.  (`List.Forall₂` forces equal lengths.)  Used to check the claim's
wording against the source's `isUnchanged`. -/
inductive SpecEq : RoamNode → BlockPayload → Prop where
  | intro (n : RoamNode) (p : BlockPayload) :
      n.text = p.text →
      List.Forall₂ SpecEq (n.children.getD []) (p.children.getD []) →
      SpecEq n p

/-- Uid the modelled backend assigns to the `k`-th node it creates. -/
def genUid (k : Nat) : String := "new-" ++ toString k

mutual

/-- Modelled from the spec (§6, tree-adapter contract): `createBlock`
creates a node and, recursively, all its descendant payload nodes; the
backend assigns fresh uids from a counter. -/
def payloadToNode (p : BlockPayload) (k : Nat) : RoamNode × Nat :=
  match p with
  | .mk t c =>
    match payloadChildrenToNodes c (k + 1) with
    | (oc, k') => (.mk t (genUid k) oc, k')

def payloadChildrenToNodes : Option (List BlockPayload) → Nat → Option (List RoamNode) × Nat
  | none, k => (none, k)
  | some l, k =>
    match payloadListToNodes l k with
    | (ns, k') => (some ns, k')

def payloadListToNodes : List BlockPayload → Nat → List RoamNode × Nat
  | [], k => ([], k)
  | p :: ps, k =>
    match payloadToNode p k with
    | (n, k') =>
      match payloadListToNodes ps k' with
      | (ns, k'') => (n :: ns, k'')

end

mutual

/-- Modelled from the spec (§6): `createBlock(parentUid, …, "last")` under a
non-root parent appends the new node to the children of the node with that
uid. -/
def applyCreateNode (target : String) (newNode : RoamNode) : RoamNode → RoamNode
  | .mk t u c =>
    if u = target then .mk t u (some (c.getD [] ++ [newNode]))
    else .mk t u (applyCreateOpt target newNode c)

def applyCreateOpt (target : String) (newNode : RoamNode) : Option (List RoamNode) → Option (List RoamNode)
  | none => none
  | some l => some (applyCreateForest target newNode l)

def applyCreateForest (target : String) (newNode : RoamNode) : List RoamNode → List RoamNode
  | [] => []
  | n :: ns => applyCreateNode target newNode n :: applyCreateForest target newNode ns

end

mutual

/-- Modelled from the spec (§6): `updateBlock(uid, text)` replaces only the
text of the node with that uid and does not touch its children. -/
def applyUpdateNode (target : String) (newText : String) : RoamNode → RoamNode
  | .mk t u c =>
    .mk (if u = target then newText else t) u (applyUpdateOpt target newText c)

def applyUpdateOpt (target : String) (newText : String) : Option (List RoamNode) → Option (List RoamNode)
  | none => none
  | some l => some (applyUpdateForest target newText l)

def applyUpdateForest (target : String) (newText : String) : List RoamNode → List RoamNode
  | [] => []
  | n :: ns => applyUpdateNode target newText n :: applyUpdateForest target newText ns

end

mutual

/-- Modelled from the spec (§6): `deleteBlock(uid)` removes the node with
that uid together with all its descendants. -/
def applyDeleteForest (target : String) : List RoamNode → List RoamNode
  | [] => []
  | n :: ns =>
    if n.uid = target then applyDeleteForest target ns
    else applyDeleteNode target n :: applyDeleteForest target ns

def applyDeleteNode (target : String) : RoamNode → RoamNode
  | .mk t u c => .mk t u (applyDeleteOpt target c)

def applyDeleteOpt (target : String) : Option (List RoamNode) → Option (List RoamNode)
  | none => none
  | some l => some (applyDeleteForest target l)

end

mutual

/-- All uids appearing in a node or its descendants. -/
def deepUidsNode : RoamNode → List String
  | .mk _ u c => u :: deepUidsOpt c

def deepUidsOpt : Option (List RoamNode) → List String
  | none => []
  | some l => deepUidsForest l

def deepUidsForest : List RoamNode → List String
  | [] => []
  | n :: ns => deepUidsNode n ++ deepUidsForest ns

end

/-- Effect of one operation on the backend tree (the children of the root
parent) and the backend's fresh-uid counter.  A `delay` has no effect. -/
def applyOp (rootUid : String) (op : Op) (tree : List RoamNode) (k : Nat) : List RoamNode × Nat :=
  match op with
  | .create pUid payload =>
    match payloadToNode payload k with
    | (n, k') => (if pUid = rootUid then tree ++ [n] else applyCreateForest pUid n tree, k')
  | .update u txt => (applyUpdateForest u txt tree, k)
  | .delete u => (applyDeleteForest u tree, k)
  | .delay _ => (tree, k)

/-- Backend state threaded through a reconciliation pass: the tree under the
root parent, the fresh-uid counter, the trace of issued operations and the
number of mutations successfully performed so far. -/
structure St where
  tree : List RoamNode
  nextUid : Nat
  trace : List Op
  muts : Nat
deriving Repr

/-- Environment of a pass: the uid of the root parent and a failure oracle —
`failAt n` is the rejection (if any) returned by the `n`-th backend mutation
call of the pass. -/
structure Env (ε : Type) where
  rootUid : String
  failAt : Nat → Option ε

/-- Environment in which no backend call ever rejects. -/
def noFail (ε : Type) (rootUid : String) : Env ε :=
  { rootUid := rootUid, failAt := fun _ => none }

/-- One awaited backend mutation: if the oracle rejects it, the rejection is
returned as-is and the state is left at the point of failure; otherwise the
operation is applied to the tree and recorded in the trace. -/
def doMutation {ε : Type} (env : Env ε) (op : Op) (s : St) : St × Except ε Unit :=
  match env.failAt s.muts with
  | some e => (s, .error e)
  | none =>
    match applyOp env.rootUid op s.tree s.nextUid with
    | (tree', k') =>
      ({ tree := tree', nextUid := k', trace := s.trace ++ [op], muts := s.muts + 1 }, .ok ())

/-- One awaited `delay(ms)` pacing suspension (never fails, only recorded). -/
def doDelay (ms : Nat) (s : St) : St :=
  { s with trace := s.trace ++ [Op.delay ms] }

/-- `ReconcilerConfig` (`src/types.ts`).  `preserveWhen` is the optional
orphan-preservation predicate; `mutationDelayMs` is optional with default
`DEFAULT_MUTATION_DELAY_MS`.  (`onProgress`, `yieldBatchSize` and `logger`
only affect cooperative yielding and logging, which issue no backend
operations and are not modelled.) -/
structure ReconcilerConfig (T : Type) where
  extractId : T → String
  buildBlock : T → BlockPayload
  extractIdFromBlock : RoamNode → Option String
  preserveWhen : Option (RoamNode → Bool)
  mutationDelayMs : Option Nat

/-- `ChildReconcilerConfig` (`src/types.ts`). -/
structure ChildReconcilerConfig where
  extractKey : String → Option String
  isSpecialBlock : Option (String → Bool)
  mutationDelayMs : Option Nat

/-- Resolved mutation delay of a `BlockReconciler`
(`config.options?.mutationDelayMs ?? DEFAULT_MUTATION_DELAY_MS`). -/
def ReconcilerConfig.mdelay {T : Type} (cfg : ReconcilerConfig T) : Nat :=
  cfg.mutationDelayMs.getD DEFAULT_MUTATION_DELAY_MS

/-- Resolved mutation delay of a `ChildrenReconciler`. -/
def ChildReconcilerConfig.mdelay (cfg : ChildReconcilerConfig) : Nat :=
  cfg.mutationDelayMs.getD DEFAULT_MUTATION_DELAY_MS

/-- The source's `this.config.isSpecialBlock?.(text)`: `false` when the
optional predicate is absent. -/
def ChildReconcilerConfig.special (cfg : ChildReconcilerConfig) (t : String) : Bool :=
  match cfg.isSpecialBlock with
  | some f => f t
  | none => false

/-- The source's `this.config.options?.preserveWhen?.(node)`: `false` when
the optional predicate is absent. -/
def ReconcilerConfig.preserves {T : Type} (cfg : ReconcilerConfig T) (n : RoamNode) : Bool :=
  match cfg.preserveWhen with
  | some p => p n
  | none => false

/-- Loop of the partition phase of `ChildrenReconciler.syncChildren`,
carrying the accumulated key map and special list. -/
def buildPropsAux (cfg : ChildReconcilerConfig) :
    List RoamNode → List (String × RoamNode) × List RoamNode →
    List (String × RoamNode) × List RoamNode
  | [], acc => acc
  | child :: rest, acc =>
    match truthy (cfg.extractKey child.text) with
    | some key => buildPropsAux cfg rest (mapSet acc.1 key child, acc.2)
    | none =>
      if cfg.special child.text then buildPropsAux cfg rest (acc.1, acc.2 ++ [child])
      else buildPropsAux cfg rest acc

/-- First phase of `ChildrenReconciler.syncChildren`: partition the existing
children into the key → node map (children whose text yields a truthy key;
`Map.set`, so a later duplicate key overwrites an earlier one) and the list
of special blocks (children with no truthy key for which `isSpecialBlock`
holds).  Children with neither are dropped. -/
def buildPropsAndSpecials (cfg : ChildReconcilerConfig) (existingChildren : List RoamNode) :
    List (String × RoamNode) × List RoamNode :=
  buildPropsAux cfg existingChildren ([], [])

/-- The special-block branch's inner loop: delete every currently-tracked
special node, each deletion awaited, delayed and counted. -/
def deleteSpecials {ε : Type} (env : Env ε) (md : Nat) :
    List RoamNode → ChildSyncStats → St → St × Except ε ChildSyncStats
  | [], stats, s => (s, .ok stats)
  | b :: bs, stats, s =>
    match doMutation env (.delete b.uid) s with
    | (s', .error e) => (s', .error e)
    | (s', .ok _) =>
      deleteSpecials env md bs { stats with deleted := stats.deleted + 1 } (doDelay md s')

/-- Main loop of `syncChildren` over the desired children, returning the
remaining (shrunk) key map together with the stats.  Mirrors the source: a
truthy-keyed child is matched against the shrinking map (skip on identical
text, update otherwise, create when not found — found keys are deleted from
the map); a keyless child recognised by `isSpecialBlock` replaces all
tracked special blocks wholesale; any other keyless child is ignored. -/
def syncLoop {ε : Type} (env : Env ε) (cfg : ChildReconcilerConfig) (parentUid : String) :
    List BlockPayload → List (String × RoamNode) → List RoamNode → ChildSyncStats → St →
    St × Except ε (List (String × RoamNode) × ChildSyncStats)
  | [], m, _, stats, s => (s, .ok (m, stats))
  | newChild :: rest, m, specials, stats, s =>
    match truthy (cfg.extractKey newChild.text) with
    | some key =>
      match mapGet m key with
      | some existing =>
        if existing.text = newChild.text then
          syncLoop env cfg parentUid rest (mapDelete m key) specials
            { stats with skipped := stats.skipped + 1 } s
        else
          match doMutation env (.update existing.uid newChild.text) s with
          | (s', .error e) => (s', .error e)
          | (s', .ok _) =>
            syncLoop env cfg parentUid rest (mapDelete m key) specials
              { stats with updated := stats.updated + 1 } (doDelay cfg.mdelay s')
      | none =>
        match doMutation env (.create parentUid newChild) s with
        | (s', .error e) => (s', .error e)
        | (s', .ok _) =>
          syncLoop env cfg parentUid rest m specials
            { stats with created := stats.created + 1 } (doDelay cfg.mdelay s')
    | none =>
      if cfg.special newChild.text then
        match deleteSpecials env cfg.mdelay specials stats s with
        | (s', .error e) => (s', .error e)
        | (s', .ok stats') =>
          match doMutation env (.create parentUid newChild) s' with
          | (s'', .error e) => (s'', .error e)
          | (s'', .ok _) =>
            syncLoop env cfg parentUid rest m []
              { stats' with created := stats'.created + 1 } (doDelay cfg.mdelay s'')
      else
        syncLoop env cfg parentUid rest m specials stats s

/-- Final phase of `syncChildren`: every entry still in the key map is an
orphan and is deleted — the source awaits the delay first, then the delete. -/
def deleteOrphans {ε : Type} (env : Env ε) (md : Nat) :
    List (String × RoamNode) → ChildSyncStats → St → St × Except ε ChildSyncStats
  | [], stats, s => (s, .ok stats)
  | (_, orphan) :: rest, stats, s =>
    match doMutation env (.delete orphan.uid) (doDelay md s) with
    | (s', .error e) => (s', .error e)
    | (s', .ok _) =>
      deleteOrphans env md rest { stats with deleted := stats.deleted + 1 } s'

/-- `ChildrenReconciler.syncChildren` (`src/children-reconciler.ts`):
partition the existing children, run the main loop over the desired
children, then delete the orphaned property blocks. -/
def syncChildren {ε : Type} (env : Env ε) (cfg : ChildReconcilerConfig) (parentUid : String)
    (existingChildren : List RoamNode) (newChildren : List BlockPayload) (s : St) :
    St × Except ε ChildSyncStats :=
  match buildPropsAndSpecials cfg existingChildren with
  | (m, specials) =>
    match syncLoop env cfg parentUid newChildren m specials
        { skipped := 0, updated := 0, created := 0, deleted := 0 } s with
    | (s', .error e) => (s', .error e)
    | (s', .ok (m', stats)) => deleteOrphans env cfg.mdelay m' stats s'

/-- Loop of `BlockReconciler.buildExistingMap`, carrying the accumulated
identifier map. -/
def buildExistingMapAux {T : Type} (cfg : ReconcilerConfig T) :
    List RoamNode → List (String × RoamNode) → List (String × RoamNode)
  | [], m => m
  | node :: rest, m =>
    match truthy (cfg.extractIdFromBlock node) with
    | some id => buildExistingMapAux cfg rest (mapSet m id node)
    | none => buildExistingMapAux cfg rest m

/-- `BlockReconciler.buildExistingMap`: map each existing top-level node by
its extracted identifier; nodes whose extraction is not truthy are skipped;
`Map.set` lets a later duplicate overwrite an earlier one. -/
def buildExistingMap {T : Type} (cfg : ReconcilerConfig T) (nodes : List RoamNode) :
    List (String × RoamNode) :=
  buildExistingMapAux cfg nodes []

/-- `BlockReconciler.updateExistingBlock`: update the text (awaiting the
mutation delay) only when it differs; then, when a children reconciler is
attached and the payload's `children` field is present (truthy), delegate to
`syncChildren` under the existing node's uid with the existing node's actual
children as baseline. -/
def updateExistingBlock {ε T : Type} (env : Env ε) (cfg : ReconcilerConfig T)
    (childCfg : Option ChildReconcilerConfig) (existing : RoamNode) (newBlock : BlockPayload)
    (s : St) : St × Except ε Unit :=
  match
    (if existing.text ≠ newBlock.text then
      match doMutation env (.update existing.uid newBlock.text) s with
      | (s', .error e) => (s', .error e)
      | (s', .ok _) => (doDelay cfg.mdelay s', .ok ())
    else (s, .ok ()) : St × Except ε Unit) with
  | (s', .error e) => (s', .error e)
  | (s', .ok _) =>
    match childCfg, newBlock.children with
    | some ccfg, some desired =>
      match syncChildren env ccfg existing.uid (existing.children.getD []) desired s' with
      | (s'', .error e) => (s'', .error e)
      | (s'', .ok _) => (s'', .ok ())
    | _, _ => (s', .ok ())

/-- `BlockReconciler.createNewBlock`: a single recursive `createBlock` call
under the given parent, appended last; note that — unlike every other
mutation site — it is not followed by a mutation delay. -/
def createNewBlock {ε : Type} (env : Env ε) (parentUid : String) (block : BlockPayload)
    (s : St) : St × Except ε Unit :=
  doMutation env (.create parentUid block) s

/-- Per-item loop of `BlockReconciler.reconcile`: extract the id, record it
as seen, build the payload, then skip / update / create against the
identifier map built once at the start. -/
def processItems {ε T : Type} (env : Env ε) (cfg : ReconcilerConfig T)
    (childCfg : Option ChildReconcilerConfig) (parentUid : String)
    (existingMap : List (String × RoamNode)) :
    List T → List String → SyncStats → St → St × Except ε (List String × SyncStats)
  | [], seen, stats, s => (s, .ok (seen, stats))
  | item :: rest, seen, stats, s =>
    let id := cfg.extractId item
    let seen' := seen.insert id
    let newBlock := cfg.buildBlock item
    match mapGet existingMap id with
    | some existingNode =>
      if isUnchanged existingNode newBlock then
        processItems env cfg childCfg parentUid existingMap rest seen'
          { stats with skipped := stats.skipped + 1 } s
      else
        match updateExistingBlock env cfg childCfg existingNode newBlock s with
        | (s', .error e) => (s', .error e)
        | (s', .ok _) =>
          processItems env cfg childCfg parentUid existingMap rest seen'
            { stats with updated := stats.updated + 1 } s'
    | none =>
      match createNewBlock env parentUid newBlock s with
      | (s', .error e) => (s', .error e)
      | (s', .ok _) =>
        processItems env cfg childCfg parentUid existingMap rest seen'
          { stats with created := stats.created + 1 } s'

/-- `BlockReconciler.removeObsolete`: walk the identifier map; entries whose
id was seen are kept, entries the `preserveWhen` predicate accepts are kept,
every other entry's node is deleted (awaiting the mutation delay) and
counted. -/
def removeObsolete {ε T : Type} (env : Env ε) (cfg : ReconcilerConfig T) :
    List (String × RoamNode) → List String → Nat → St → St × Except ε Nat
  | [], _, deletedCount, s => (s, .ok deletedCount)
  | (id, node) :: rest, seenIds, deletedCount, s =>
    if id ∈ seenIds then
      removeObsolete env cfg rest seenIds deletedCount s
    else if cfg.preserves node then
      removeObsolete env cfg rest seenIds deletedCount s
    else
      match doMutation env (.delete node.uid) s with
      | (s', .error e) => (s', .error e)
      | (s', .ok _) =>
        removeObsolete env cfg rest seenIds (deletedCount + 1) (doDelay cfg.mdelay s')

/-- `BlockReconciler.reconcile` (`src/block-reconciler.ts`): fetch the
existing children once (the model reads the tree of the current state),
build the identifier map, process every item in order, then delete the
obsolete blocks and return the stats (`total` is fixed to the input length
from the start). -/
def reconcile {ε T : Type} (env : Env ε) (cfg : ReconcilerConfig T)
    (childCfg : Option ChildReconcilerConfig) (parentUid : String) (items : List T)
    (s : St) : St × Except ε SyncStats :=
  let existingNodes := s.tree
  let existingMap := buildExistingMap cfg existingNodes
  match processItems env cfg childCfg parentUid existingMap items []
      { total := items.length, skipped := 0, created := 0, updated := 0, deleted := 0 } s with
  | (s', .error e) => (s', .error e)
  | (s', .ok (seenIds, stats)) =>
    match removeObsolete env cfg existingMap seenIds 0 s' with
    | (s'', .error e) => (s'', .error e)
    | (s'', .ok deletedCount) => (s'', .ok { stats with deleted := deletedCount })

/-- Whether an operation is a `delete` of the given uid. -/
def Op.isDeleteOf (u : String) : Op → Bool
  | .delete v => v = u
  | _ => false

/-- Whether an operation is an `update` or a `delete`. -/
def Op.isUpdDel : Op → Bool
  | .update _ _ => true
  | .delete _ => true
  | _ => false

/-- Whether an operation is a `delete`. -/
def Op.isDelete : Op → Bool
  | .delete _ => true
  | _ => false

/-- Whether an operation targets the node with the given uid: an update or
delete of that uid, or a creation under it as parent. -/
def Op.touches (u : String) : Op → Bool
  | .create p _ => p = u
  | .update v _ => v = u
  | .delete v => v = u
  | .delay _ => false

/-- The uid an operation targets: the node a mutation updates or deletes,
or the parent a creation inserts under.  A pacing delay targets nothing. -/
def Op.target? : Op → Option String
  | .create p _ => some p
  | .update u _ => some u
  | .delete u => some u
  | .delay _ => none

/-- Every operation of the trace targets a uid from the allowed list. -/
def TraceAllowed (allowed : List String) (t : List Op) : Prop :=
  ∀ op ∈ t, ∀ u, op.target? = some u → u ∈ allowed

/-- Every update and delete in the trace is immediately followed by a
pacing suspension of `ms` milliseconds. -/
def updDelFollowedByDelay (ms : Nat) (t : List Op) : Prop :=
  ∀ i op, t[i]? = some op → op.isUpdDel → t[i + 1]? = some (.delay ms)

/-- Every backend mutation in the trace is immediately followed by a pacing
suspension of `ms` milliseconds. -/
def mutFollowedByDelay (ms : Nat) (t : List Op) : Prop :=
  ∀ i op, t[i]? = some op → op.isMut → t[i + 1]? = some (.delay ms)

/-- Every delete in the trace is immediately preceded by a pacing
suspension of `ms` milliseconds. -/
def deletePrecededByDelay (ms : Nat) (t : List Op) : Prop :=
  ∀ i op, t[i]? = some op → op.isDelete → ∃ j, i = j + 1 ∧ t[j]? = some (.delay ms)

/-- The entries of the identifier map that `removeObsolete` deletes: id not
seen and not accepted by `preserveWhen`. -/
def obsoleteEntries {T : Type} (cfg : ReconcilerConfig T) (m : List (String × RoamNode))
    (seenIds : List String) : List (String × RoamNode) :=
  m.filter (fun e => !(decide (e.1 ∈ seenIds)) && !(cfg.preserves e.2))

/-- Truthy keys of the desired children, in order. -/
def desiredKeys (cfg : ChildReconcilerConfig) (l : List BlockPayload) : List String :=
  l.filterMap (fun c => truthy (cfg.extractKey c.text))

/-- Trace fragment `removeObsolete` emits for a list of deleted entries:
for each one, the delete followed by the mutation delay. -/
def orphanOps (md : Nat) (l : List (String × RoamNode)) : List Op :=
  l.flatMap (fun e => [Op.delete e.2.uid, Op.delay md])

/-- Trace fragment `deleteOrphans` emits: for each orphaned property child,
the mutation delay first, then the delete (this is the order in the
source). -/
def childOrphanOps (md : Nat) (l : List (String × RoamNode)) : List Op :=
  l.flatMap (fun e => [Op.delay md, Op.delete e.2.uid])

/-- Trace fragment the special-block branch emits while deleting the
tracked special nodes: each delete followed by the mutation delay. -/
def specialDeleteOps (md : Nat) (l : List RoamNode) : List Op :=
  l.flatMap (fun b => [Op.delete b.uid, Op.delay md])

/-- Replay of a trace against a backend tree: the cumulative effect of the
recorded operations (pacing delays have no effect). -/
def applyTrace (rootUid : String) : List Op → List RoamNode → Nat → List RoamNode × Nat
  | [], tree, k => (tree, k)
  | op :: rest, tree, k =>
    match applyOp rootUid op tree k with
    | (tree', k') => applyTrace rootUid rest tree' k'

/-- Soundness relation between the state before and after a (possibly
failing) engine step: the trace only grows and the tree is exactly the
replay of the growth, the mutation counter only grows and counts the
mutations of the trace, every mutation attempted between the two states
succeeded according to the oracle, and if the step returned a rejection it
is verbatim the oracle's rejection of the next (first failing) mutation. -/
def StepOk {ε α : Type} (env : Env ε) (s s' : St) (res : Except ε α) : Prop :=
  (∃ tail, s'.trace = s.trace ++ tail ∧
    s'.tree = (applyTrace env.rootUid tail s.tree s.nextUid).1 ∧
    s'.nextUid = (applyTrace env.rootUid tail s.tree s.nextUid).2) ∧
  s.muts ≤ s'.muts ∧
  (mutCount s.trace = s.muts → mutCount s'.trace = s'.muts) ∧
  (∀ j, s.muts ≤ j → j < s'.muts → env.failAt j = none) ∧
  (∀ e, res = .error e → env.failAt s'.muts = some e)

/-! ### Concrete fixtures used by witnesses and counterexamples -/

/-- A fixture node matching item `"1"` of `cfgW` exactly. -/
def nodeW : RoamNode := .mk "task 1" "u1" none

/-- A straightforward concrete reconciler configuration: items are their own
ids, payload text is `task <id>`, reverse extraction recognises those
texts. -/
def cfgW : ReconcilerConfig String :=
  { extractId := fun i => i
    buildBlock := fun i => .mk ("task " ++ i) none
    extractIdFromBlock := fun nd =>
      if nd.text = "task 1" then some "1"
      else if nd.text = "task 2" then some "2" else none
    preserveWhen := none
    mutationDelayMs := some 5 }

/-- Initial backend state holding the given tree, with an empty trace. -/
def st0 (tree : List RoamNode) : St :=
  { tree := tree, nextUid := 0, trace := [], muts := 0 }

/-- Fixture node carrying id `"2"` under `cfgW`-style extraction. -/
def node2W : RoamNode := .mk "task 2" "u2" none

/-- Fixture node marked as done (preserved by `cfgP`). -/
def node3W : RoamNode := .mk "done" "u3" none

/-- Fixture configuration with a `preserveWhen` predicate accepting nodes
whose text is `done`. -/
def cfgP : ReconcilerConfig String :=
  { extractId := fun i => i
    buildBlock := fun i => .mk ("task " ++ i) none
    extractIdFromBlock := fun nd =>
      if nd.text = "task 1" then some "1"
      else if nd.text = "task 2" then some "2"
      else if nd.text = "done" then some "3" else none
    preserveWhen := some (fun nd => nd.text = "done")
    mutationDelayMs := some 5 }

/-- Fixture children-reconciler configuration recognising a few property
texts by key. -/
def ccfgB : ChildReconcilerConfig :=
  { extractKey := fun t =>
      if t = "priority:: low" ∨ t = "priority:: high" then some "priority"
      else if t = "status:: active" ∨ t = "status:: idle" then some "status"
      else if t = "old-prop:: value" then some "old-prop"
      else if t = "new-prop:: value" then some "new-prop" else none
    isSpecialBlock := none
    mutationDelayMs := some 7 }

/-- Fixture children-reconciler configuration in which `comments` is a
special block and nothing yields a key. -/
def ccfgS : ChildReconcilerConfig :=
  { extractKey := fun _ => none
    isSpecialBlock := some (fun t => t = "comments")
    mutationDelayMs := some 7 }

/-- Fixture children-reconciler configuration in which one text extracts
the empty-string key and the special predicate recognises it as well. -/
def ccfgE : ChildReconcilerConfig :=
  { extractKey := fun t => if t = "empty-key special" then some "" else none
    isSpecialBlock := some (fun t => t = "empty-key special" ∨ t = "new special")
    mutationDelayMs := some 7 }

/-- Fixture reconciler configuration whose reverse extraction returns the
empty string for the text `empty`. -/
def cfgEmpty : ReconcilerConfig String :=
  { extractId := fun i => i
    buildBlock := fun i => .mk ("task " ++ i) none
    extractIdFromBlock := fun nd =>
      if nd.text = "task 1" then some "1"
      else if nd.text = "empty" then some "" else none
    preserveWhen := none
    mutationDelayMs := some 5 }

/-- Fixture children-reconciler configuration whose key extraction returns
the empty string for one text and which has no special-block predicate. -/
def ccfgEmptyKey : ChildReconcilerConfig :=
  { extractKey := fun t => if t = "empty-key plain" then some "" else none
    isSpecialBlock := none
    mutationDelayMs := some 7 }

/-- Failure-oracle fixture: the backend accepts the first mutation and
rejects the second one with the error `boom`. -/
def envF : Env String :=
  { rootUid := "root", failAt := fun n => if n = 1 then some "boom" else none }

/-- Fixture configuration whose payload carries a child while the matched
node has none, with no children reconciler attached: the update path can
never converge the structure. -/
def cfgNC : ReconcilerConfig String :=
  { extractId := fun i => i
    buildBlock := fun _ => .mk "task" (some [.mk "note" none])
    extractIdFromBlock := fun nd => if nd.text = "task" then some "1" else none
    preserveWhen := none
    mutationDelayMs := some 5 }

/-! ### Helper lemmas: the structural comparison -/

theorem isListChildrenUnchanged_iff_forall2 :
    ∀ (l : List RoamNode) (l2 : List BlockPayload),
      (isListChildrenUnchanged l l2 = true ↔
        List.Forall₂ (fun n p => isChildUnchanged n p = true) l l2) := by
  intro l
  induction l with
  | nil => intro l2; cases l2 <;> simp [isListChildrenUnchanged]
  | cons n ns ih =>
    intro l2
    cases l2 with
    | nil => simp [isListChildrenUnchanged]
    | cons p ps => simp [isListChildrenUnchanged, ih]

theorem isOptChildrenUnchanged_eq_getD (o : Option (List RoamNode)) (o2 : Option (List BlockPayload)) :
    isOptChildrenUnchanged o o2 = isListChildrenUnchanged (o.getD []) (o2.getD []) := by
  cases o with
  | none =>
    cases o2 with
    | none => rfl
    | some l => cases l <;> rfl
  | some l =>
    cases o2 with
    | none => cases l <;> rfl
    | some l2 => rfl

theorem forall2_congr_of_mem {α β : Type} {R S : α → β → Prop}
    (l : List α) (l2 : List β) (h : ∀ x ∈ l, ∀ y, R x y ↔ S x y) :
    (List.Forall₂ R l l2 ↔ List.Forall₂ S l l2) := by
  induction l generalizing l2 with
  | nil => cases l2 <;> simp
  | cons x xs ih =>
    cases l2 with
    | nil => simp
    | cons y ys =>
      simp only [List.forall₂_cons]
      constructor
      · rintro ⟨h1, h2⟩
        exact ⟨(h x (by simp) y).mp h1, (ih ys (fun a ha b => h a (by simp [ha]) b)).mp h2⟩
      · rintro ⟨h1, h2⟩
        exact ⟨(h x (by simp) y).mpr h1, (ih ys (fun a ha b => h a (by simp [ha]) b)).mpr h2⟩

theorem sizeOf_mem_children {t u : String} {l : List RoamNode} {x : RoamNode}
    (hx : x ∈ l) (o : Option (List RoamNode)) (ho : o = some l) :
    sizeOf x < sizeOf (RoamNode.mk t u o) := by
  subst ho
  have h1 : sizeOf x < sizeOf l := List.sizeOf_lt_of_mem hx
  simp only [RoamNode.mk.sizeOf_spec, Option.some.sizeOf_spec]
  omega

theorem SpecEq_iff (n : RoamNode) (p : BlockPayload) :
    SpecEq n p ↔
      (n.text = p.text ∧
        List.Forall₂ SpecEq (n.children.getD []) (p.children.getD [])) := by
  constructor
  · intro h; cases h with
    | intro _ _ h1 h2 => exact ⟨h1, h2⟩
  · intro h; exact SpecEq.intro n p h.1 h.2

theorem isChildUnchanged_iff_SpecEq :
    ∀ (n : RoamNode) (p : BlockPayload), isChildUnchanged n p = true ↔ SpecEq n p := by
  have main : ∀ (sz : Nat) (n : RoamNode), sizeOf n ≤ sz →
      ∀ p, (isChildUnchanged n p = true ↔ SpecEq n p) := by
    intro sz
    induction sz with
    | zero =>
      intro n hn
      exfalso
      cases n with
      | mk t u c =>
        simp only [RoamNode.mk.sizeOf_spec] at hn
        omega
    | succ k ih =>
      intro n hn p
      cases n with
      | mk t u c =>
        cases p with
        | mk t2 c2 =>
          have hmem : ∀ x ∈ c.getD [], ∀ y, (isChildUnchanged x y = true ↔ SpecEq x y) := by
            intro x hx y
            apply ih
            cases c with
            | none => simp at hx
            | some l =>
              have := sizeOf_mem_children (t := t) (u := u) (by simpa using hx) (some l) rfl
              omega
          rw [SpecEq_iff]
          simp only [isChildUnchanged, RoamNode.text, BlockPayload.text, RoamNode.children,
            BlockPayload.children]
          rw [isOptChildrenUnchanged_eq_getD]
          by_cases ht : t = t2
          · simp only [ht, ne_eq, not_true_eq_false, if_false]
            rw [isListChildrenUnchanged_iff_forall2, forall2_congr_of_mem _ _ hmem]
            simp
          · simp [ht]
  intro n p
  exact main (sizeOf n) n le_rfl p

theorem isUnchanged_eq_isChildUnchanged (n : RoamNode) (p : BlockPayload) :
    isUnchanged n p = isChildUnchanged n p := by
  cases n with
  | mk t u c =>
    cases p with
    | mk t2 c2 =>
      simp only [isUnchanged, isChildUnchanged, RoamNode.text, BlockPayload.text,
        RoamNode.children, BlockPayload.children]

/-! ### C2: structural skip condition -/

/-- C2: for an item whose extracted id matches an existing node in the
identifier map, `reconcile`'s per-item step counts the item as skipped and
issues no backend operation for it (state unchanged) if and only if the
node and the built payload are structurally equal in the sense of `SpecEq`:
identical texts, child lists of equal length that are pairwise recursively
equal at unbounded depth, absent child lists treated as empty, uids
ignored.  The first conjunct checks that the source's `isUnchanged` is
exactly that structural equality. -/
theorem claim_C2 {ε T : Type} (env : Env ε) (cfg : ReconcilerConfig T)
    (childCfg : Option ChildReconcilerConfig) (parentUid : String)
    (existingMap : List (String × RoamNode)) (item : T) (n : RoamNode)
    (seen : List String) (stats : SyncStats) (s : St)
    (hmatch : mapGet existingMap (cfg.extractId item) = some n) :
    (isUnchanged n (cfg.buildBlock item) = true ↔ SpecEq n (cfg.buildBlock item)) ∧
    (processItems env cfg childCfg parentUid existingMap [item] seen stats s
        = (s, .ok (seen.insert (cfg.extractId item),
            { stats with skipped := stats.skipped + 1 }))
      ↔ SpecEq n (cfg.buildBlock item)) := by
  have hiff : isUnchanged n (cfg.buildBlock item) = true ↔ SpecEq n (cfg.buildBlock item) := by
    rw [isUnchanged_eq_isChildUnchanged]
    exact isChildUnchanged_iff_SpecEq n (cfg.buildBlock item)
  refine ⟨hiff, ?_⟩
  rw [← hiff]
  simp only [processItems, hmatch]
  by_cases hu : isUnchanged n (cfg.buildBlock item) = true
  · simp [hu, processItems]
  · have hu' : isUnchanged n (cfg.buildBlock item) = false := eq_false_of_ne_true hu
    rw [hu']
    simp only [Bool.false_eq_true, if_false, iff_false]
    intro h
    rcases hup : updateExistingBlock env cfg childCfg n (cfg.buildBlock item) s with ⟨s', r⟩
    rw [hup] at h
    cases r with
    | error e => simp at h
    | ok _ =>
      simp only [processItems, Prod.mk.injEq, Except.ok.injEq, SyncStats.mk.injEq] at h
      omega

/-- Witness for C2 at a concrete input: the node `task 1` matches the
payload built for item `"1"` structurally, so the step is a pure skip. -/
theorem claim_C2_witness :
    mapGet [("1", nodeW)] (cfgW.extractId "1") = some nodeW ∧
    processItems (noFail Unit "root") cfgW none "root" [("1", nodeW)] ["1"] []
        { total := 1, skipped := 0, created := 0, updated := 0, deleted := 0 }
        (st0 [nodeW])
      = (st0 [nodeW], .ok (["1"],
          { total := 1, skipped := 1, created := 0, updated := 0, deleted := 0 })) := by
  refine ⟨rfl, ?_⟩
  exact (claim_C2 (noFail Unit "root") cfgW none "root" [("1", nodeW)] "1" nodeW []
      { total := 1, skipped := 0, created := 0, updated := 0, deleted := 0 }
      (st0 [nodeW]) rfl).2.mpr
    (SpecEq.intro nodeW (cfgW.buildBlock "1") rfl List.Forall₂.nil)

/-! ### C3: deletion of obsolete blocks -/

theorem doMutation_noFail {ε : Type} (r : String) (op : Op) (s : St) :
    doMutation (noFail ε r) op s
      = ({ tree := (applyOp r op s.tree s.nextUid).1,
           nextUid := (applyOp r op s.tree s.nextUid).2,
           trace := s.trace ++ [op], muts := s.muts + 1 }, .ok ()) := by
  rcases h : applyOp r op s.tree s.nextUid with ⟨t', k'⟩
  simp [doMutation, noFail, h]

theorem removeObsolete_noFail {ε T : Type} (r : String) (cfg : ReconcilerConfig T)
    (seenIds : List String) :
    ∀ (m : List (String × RoamNode)) (cnt : Nat) (s : St),
      ((removeObsolete (noFail ε r) cfg m seenIds cnt s).2
          = .ok (cnt + (obsoleteEntries cfg m seenIds).length)) ∧
      ((removeObsolete (noFail ε r) cfg m seenIds cnt s).1.trace
          = s.trace ++ orphanOps cfg.mdelay (obsoleteEntries cfg m seenIds)) := by
  intro m
  induction m with
  | nil => intro cnt s; simp [removeObsolete, obsoleteEntries, orphanOps]
  | cons e rest ih =>
    intro cnt s
    rcases e with ⟨id, node⟩
    by_cases hseen : id ∈ seenIds
    · have hobs : obsoleteEntries cfg ((id, node) :: rest) seenIds
          = obsoleteEntries cfg rest seenIds := by
        simp [obsoleteEntries, hseen]
      simp only [removeObsolete, if_pos hseen, hobs]
      exact ih cnt s
    · by_cases hpres : cfg.preserves node = true
      · have hobs : obsoleteEntries cfg ((id, node) :: rest) seenIds
            = obsoleteEntries cfg rest seenIds := by
          simp [obsoleteEntries, hpres]
        simp only [removeObsolete, if_neg hseen, if_pos hpres, hobs]
        exact ih cnt s
      · have hobs : obsoleteEntries cfg ((id, node) :: rest) seenIds
            = (id, node) :: obsoleteEntries cfg rest seenIds := by
          simp [obsoleteEntries, hseen, hpres]
        simp only [removeObsolete, if_neg hseen, if_neg hpres, hobs, doMutation_noFail]
        rcases ih (cnt + 1) (doDelay cfg.mdelay
          { tree := (applyOp r (.delete node.uid) s.tree s.nextUid).1,
            nextUid := (applyOp r (.delete node.uid) s.tree s.nextUid).2,
            trace := s.trace ++ [.delete node.uid], muts := s.muts + 1 }) with ⟨h1, h2⟩
        refine ⟨?_, ?_⟩
        · rw [h1]; simp [List.length_cons]; omega
        · rw [h2]; simp [doDelay, orphanOps]

theorem orphanOps_cons (md : Nat) (e : String × RoamNode) (l : List (String × RoamNode)) :
    orphanOps md (e :: l) = Op.delete e.2.uid :: Op.delay md :: orphanOps md l := by
  simp [orphanOps]

theorem orphanOps_filter_isDeleteOf (md : Nat) (u : String) :
    ∀ (l : List (String × RoamNode)),
      (orphanOps md l).filter (Op.isDeleteOf u)
        = ((l.map (fun e => e.2.uid)).filter (fun v => v = u)).map Op.delete := by
  intro l
  induction l with
  | nil => simp [orphanOps]
  | cons e rest ih =>
    rw [orphanOps_cons]
    by_cases h : e.2.uid = u
    · simp [Op.isDeleteOf, h, ih]
    · simp [Op.isDeleteOf, h, ih]

theorem filter_eq_singleton_of_nodup (u : String) :
    ∀ (l : List String), l.Nodup → u ∈ l → (l.filter (fun v => v = u)).length = 1 := by
  intro l
  induction l with
  | nil => intro _ h; simp at h
  | cons a rest ih =>
    intro hnd hmem
    rcases List.nodup_cons.mp hnd with ⟨hna, hnd'⟩
    by_cases hau : a = u
    · subst hau
      have : rest.filter (fun v => v = a) = [] :=
        List.filter_eq_nil_iff.mpr (fun b hb => by
          simp only [decide_eq_true_eq]
          intro hba; exact hna (hba ▸ hb))
      simp [this]
    · have hmem' : u ∈ rest := by
        rcases List.mem_cons.mp hmem with h | h
        · exact absurd h.symm hau
        · exact h
      simp only [List.filter_cons]
      rw [if_neg (by simp [hau])]
      exact ih hnd' hmem'

/-- C3: after the items are processed, `removeObsolete` walks the identifier
map and, for every entry whose id is not in the seen set: when `preserveWhen`
is absent or rejects the node it deletes it exactly once by its uid
(each delete in the emitted trace, followed by the mutation delay), and the
returned deleted counter equals the number of such entries; entries whose id
was seen, and entries `preserveWhen` accepts, are never deleted and do not
affect the counter. -/
theorem claim_C3 {ε T : Type} (r : String) (cfg : ReconcilerConfig T)
    (m : List (String × RoamNode)) (seenIds : List String) (s : St)
    (hnodup : (m.map (fun e => e.2.uid)).Nodup) :
    ((removeObsolete (noFail ε r) cfg m seenIds 0 s).2
        = .ok ((obsoleteEntries cfg m seenIds).length)) ∧
    ((removeObsolete (noFail ε r) cfg m seenIds 0 s).1.trace
        = s.trace ++ orphanOps cfg.mdelay (obsoleteEntries cfg m seenIds)) ∧
    (∀ e ∈ m, e.1 ∉ seenIds → cfg.preserves e.2 = false →
      ((orphanOps cfg.mdelay (obsoleteEntries cfg m seenIds)).filter
          (Op.isDeleteOf e.2.uid)).length = 1) ∧
    (∀ e ∈ m, cfg.preserves e.2 = true →
      (orphanOps cfg.mdelay (obsoleteEntries cfg m seenIds)).filter
          (Op.isDeleteOf e.2.uid) = []) := by
  obtain ⟨h1, h2⟩ := removeObsolete_noFail (ε := ε) r cfg seenIds m 0 s
  have hsub : (obsoleteEntries cfg m seenIds).Sublist m := List.filter_sublist m
  have hnodupObs : ((obsoleteEntries cfg m seenIds).map (fun e => e.2.uid)).Nodup :=
    (hsub.map (fun e => e.2.uid)).nodup hnodup
  refine ⟨by simpa using h1, h2, ?_, ?_⟩
  · intro e hem hseen hpres
    have hobs : e ∈ obsoleteEntries cfg m seenIds := by
      simp [obsoleteEntries, List.mem_filter, hem, hseen, hpres]
    rw [orphanOps_filter_isDeleteOf]
    rw [List.length_map]
    exact filter_eq_singleton_of_nodup e.2.uid _ hnodupObs
      (List.mem_map.mpr ⟨e, hobs, rfl⟩)
  · intro e hem hpres
    rw [orphanOps_filter_isDeleteOf]
    have : ((obsoleteEntries cfg m seenIds).map (fun x => x.2.uid)).filter
        (fun v => v = e.2.uid) = [] := by
      apply List.filter_eq_nil_iff.mpr
      intro v hv
      simp only [decide_eq_true_eq]
      rcases List.mem_map.mp hv with ⟨e', he', rfl⟩
      intro huid
      have hem' : e' ∈ m := hsub.subset he'
      have : e' = e := List.inj_on_of_nodup_map hnodup hem' hem huid
      subst this
      have := (List.mem_filter.mp he').2
      simp [hpres] at this
    rw [this]
    simp

/-- Witness for C3 at a concrete input: map with a seen entry, an obsolete
entry and a preserved entry — the obsolete node `u2` is deleted exactly
once, the preserved node `u3` never. -/
theorem claim_C3_witness :
    ((removeObsolete (noFail Unit "root") cfgP
        [("1", nodeW), ("2", node2W), ("3", node3W)] ["1"] 0 (st0 [])).2 = .ok 1) ∧
    ((removeObsolete (noFail Unit "root") cfgP
        [("1", nodeW), ("2", node2W), ("3", node3W)] ["1"] 0 (st0 [])).1.trace
      = [.delete "u2", .delay 5]) ∧
    (((orphanOps 5 (obsoleteEntries cfgP
        [("1", nodeW), ("2", node2W), ("3", node3W)] ["1"])).filter
          (Op.isDeleteOf "u2")).length = 1) ∧
    ((orphanOps 5 (obsoleteEntries cfgP
        [("1", nodeW), ("2", node2W), ("3", node3W)] ["1"])).filter
          (Op.isDeleteOf "u3") = []) := by
  obtain ⟨h1, h2, h3, h4⟩ := claim_C3 (ε := Unit) "root" cfgP
    [("1", nodeW), ("2", node2W), ("3", node3W)] ["1"] (st0 [])
    (by simp [nodeW, node2W, node3W, RoamNode.uid])
  refine ⟨h1, ?_, ?_, ?_⟩
  · rw [h2]; rfl
  · exact h3 ("2", node2W) (by simp) (by simp) rfl
  · exact h4 ("3", node3W) (by simp) rfl

/-! ### C4: key-based convergence of the property reconciler -/

theorem mapGet_eq_none_iff {α : Type} (k : String) :
    ∀ (m : List (String × α)), mapGet m k = none ↔ k ∉ m.map Prod.fst := by
  intro m
  induction m with
  | nil => simp [mapGet]
  | cons e rest ih =>
    rcases e with ⟨k', v'⟩
    by_cases h : k' = k
    · simp [mapGet, h]
    · simp [mapGet, h, ih, Ne.symm h]

theorem mapDelete_eq_filter_of_nodup {α : Type} (k : String) :
    ∀ (m : List (String × α)), (m.map Prod.fst).Nodup →
      mapDelete m k = m.filter (fun e => !(decide (e.1 = k))) := by
  intro m
  induction m with
  | nil => intro _; simp [mapDelete]
  | cons e rest ih =>
    intro hnd
    rw [List.map_cons] at hnd
    rcases List.nodup_cons.mp hnd with ⟨hke, hnd'⟩
    by_cases h : e.1 = k
    · have hrest : rest.filter (fun e' => !(decide (e'.1 = k))) = rest := by
        apply List.filter_eq_self.mpr
        intro e' he'
        simp only [Bool.not_eq_eq_eq_not, Bool.not_true, decide_eq_false_iff_not]
        intro hk
        have he1 : e.1 = e'.1 := h.trans hk.symm
        exact hke (he1 ▸ List.mem_map.mpr ⟨e', he', rfl⟩)
      simp [mapDelete, h, hrest]
    · simp only [mapDelete, if_neg h]
      rw [ih hnd']
      simp [h]

theorem mem_mapSet {α : Type} (k : String) (v : α) :
    ∀ (m : List (String × α)) (e : String × α), e ∈ mapSet m k v → e ∈ m ∨ e = (k, v) := by
  intro m
  induction m with
  | nil => intro e he; simp [mapSet] at he; right; exact he
  | cons f fs ih =>
    intro e he
    by_cases hf : f.1 = k
    · rcases f with ⟨fk, fv⟩
      simp only at hf
      simp only [mapSet, if_pos hf] at he
      rcases List.mem_cons.mp he with h1 | h1
      · right; exact h1
      · left; simp [h1]
    · rcases f with ⟨fk, fv⟩
      simp only at hf
      simp only [mapSet, if_neg hf] at he
      rcases List.mem_cons.mp he with h1 | h1
      · left; simp [h1]
      · rcases ih e h1 with h2 | h2
        · left; simp [h2]
        · right; exact h2

theorem mapSet_keys_nodup {α : Type} (k : String) (v : α) :
    ∀ (m : List (String × α)), (m.map Prod.fst).Nodup →
      ((mapSet m k v).map Prod.fst).Nodup := by
  intro m
  induction m with
  | nil => intro _; simp [mapSet]
  | cons e rest ih =>
    intro hnd
    rw [List.map_cons] at hnd
    rcases List.nodup_cons.mp hnd with ⟨hke, hnd'⟩
    rcases e with ⟨k', v'⟩
    by_cases h : k' = k
    · simp only [mapSet, if_pos h, List.map_cons, List.nodup_cons]
      refine ⟨?_, hnd'⟩
      rw [← h]
      exact hke
    · simp only [mapSet, if_neg h, List.map_cons, List.nodup_cons]
      refine ⟨?_, ih hnd'⟩
      intro hmem
      rcases List.mem_map.mp hmem with ⟨e', he', heq⟩
      rcases mem_mapSet k v rest e' he' with h1 | h1
      · exact hke (heq ▸ List.mem_map.mpr ⟨e', h1, rfl⟩)
      · subst h1
        exact h (by simpa using heq.symm)

theorem buildPropsAux_keys_nodup (cfg : ChildReconcilerConfig) :
    ∀ (l : List RoamNode) (acc : List (String × RoamNode) × List RoamNode),
      (acc.1.map Prod.fst).Nodup → (((buildPropsAux cfg l acc).1).map Prod.fst).Nodup := by
  intro l
  induction l with
  | nil => intro acc h; simpa [buildPropsAux] using h
  | cons child rest ih =>
    intro acc h
    rcases hk : truthy (cfg.extractKey child.text) with _ | key
    · by_cases hs : cfg.special child.text = true
      · simp only [buildPropsAux, hk, if_pos hs]
        exact ih _ h
      · simp only [buildPropsAux, hk, if_neg hs]
        exact ih _ h
    · simp only [buildPropsAux, hk]
      exact ih _ (mapSet_keys_nodup key child acc.1 h)

theorem buildProps_keys_nodup (cfg : ChildReconcilerConfig) (l : List RoamNode) :
    (((buildPropsAndSpecials cfg l).1).map Prod.fst).Nodup :=
  buildPropsAux_keys_nodup cfg l ([], []) (by simp)

theorem desiredKeys_cons_some (cfg : ChildReconcilerConfig) (c : BlockPayload)
    (rest : List BlockPayload) (k : String) (hk : truthy (cfg.extractKey c.text) = some k) :
    desiredKeys cfg (c :: rest) = k :: desiredKeys cfg rest := by
  simp [desiredKeys, List.filterMap_cons, hk]

theorem filter_erase_key {α : Type} (k : String) (ks : List String) :
    ∀ (m : List (String × α)), (m.map Prod.fst).Nodup →
      (mapDelete m k).filter (fun e => !(decide (e.1 ∈ ks)))
        = m.filter (fun e => !(decide (e.1 ∈ k :: ks))) := by
  intro m h
  rw [mapDelete_eq_filter_of_nodup k m h, List.filter_filter]
  apply List.filter_congr
  intro a _
  by_cases h1 : a.1 = k <;> by_cases h2 : a.1 ∈ ks <;> simp [h1, h2]

theorem filter_cons_key_of_absent {α : Type} (k : String) (ks : List String)
    (m : List (String × α)) (habs : mapGet m k = none) :
    m.filter (fun e => !(decide (e.1 ∈ k :: ks)))
      = m.filter (fun e => !(decide (e.1 ∈ ks))) := by
  apply List.filter_congr
  intro a ha
  have hk : k ∉ m.map Prod.fst := (mapGet_eq_none_iff k m).mp habs
  have h1 : a.1 ≠ k := by
    intro heq
    exact hk (heq ▸ List.mem_map.mpr ⟨a, ha, rfl⟩)
  by_cases h2 : a.1 ∈ ks <;> simp [h1, h2]

theorem mapDelete_keys_nodup {α : Type} (k : String) (m : List (String × α))
    (h : (m.map Prod.fst).Nodup) : ((mapDelete m k).map Prod.fst).Nodup := by
  rw [mapDelete_eq_filter_of_nodup k m h]
  exact ((List.filter_sublist m).map Prod.fst).nodup h

theorem syncLoop_allKeys {ε : Type} (r : String) (cfg : ChildReconcilerConfig) (pu : String) :
    ∀ (cs : List BlockPayload) (m : List (String × RoamNode)) (sp : List RoamNode)
      (stats : ChildSyncStats) (s : St),
      (∀ c ∈ cs, (truthy (cfg.extractKey c.text)).isSome = true) →
      (m.map Prod.fst).Nodup →
      ∃ s' stats',
        syncLoop (noFail ε r) cfg pu cs m sp stats s
          = (s', .ok (m.filter (fun e => !(decide (e.1 ∈ desiredKeys cfg cs))), stats')) ∧
        stats'.skipped + stats'.updated + stats'.created
          = stats.skipped + stats.updated + stats.created + cs.length ∧
        stats'.deleted = stats.deleted := by
  intro cs
  induction cs with
  | nil =>
    intro m sp stats s _ _
    refine ⟨s, stats, ?_, by simp, rfl⟩
    have hfil : m.filter (fun e => !(decide (e.1 ∈ desiredKeys cfg []))) = m := by
      apply List.filter_eq_self.mpr
      intro e _
      simp [desiredKeys]
    rw [hfil]
    simp [syncLoop]
  | cons c rest ih =>
    intro m sp stats s hkeys hnd
    have hcsome : (truthy (cfg.extractKey c.text)).isSome = true := hkeys c (by simp)
    rcases hkk : truthy (cfg.extractKey c.text) with _ | k
    · rw [hkk] at hcsome; simp at hcsome
    · have hrest : ∀ c' ∈ rest, (truthy (cfg.extractKey c'.text)).isSome = true :=
        fun c' hc' => hkeys c' (by simp [hc'])
      rw [desiredKeys_cons_some cfg c rest k hkk]
      rcases hm : mapGet m k with _ | ex
      · -- not found: create
        obtain ⟨s', stats', heq, hsum, hdel⟩ :=
          ih m sp { stats with created := stats.created + 1 }
            (doDelay cfg.mdelay
              { tree := (applyOp r (.create pu c) s.tree s.nextUid).1,
                nextUid := (applyOp r (.create pu c) s.tree s.nextUid).2,
                trace := s.trace ++ [.create pu c], muts := s.muts + 1 }) hrest hnd
        refine ⟨s', stats', ?_, by simp at hsum ⊢; omega, by simpa using hdel⟩
        simp only [syncLoop, hkk, hm, doMutation_noFail]
        rw [heq, filter_cons_key_of_absent k _ m hm]
      · by_cases htext : ex.text = c.text
        · -- found, unchanged: skip
          obtain ⟨s', stats', heq, hsum, hdel⟩ :=
            ih (mapDelete m k) sp { stats with skipped := stats.skipped + 1 } s hrest
              (mapDelete_keys_nodup k m hnd)
          refine ⟨s', stats', ?_, by simp at hsum ⊢; omega, by simpa using hdel⟩
          simp only [syncLoop, hkk, hm, if_pos htext]
          rw [heq, filter_erase_key k _ m hnd]
        · -- found, changed: update
          obtain ⟨s', stats', heq, hsum, hdel⟩ :=
            ih (mapDelete m k) sp { stats with updated := stats.updated + 1 }
              (doDelay cfg.mdelay
                { tree := (applyOp r (.update ex.uid c.text) s.tree s.nextUid).1,
                  nextUid := (applyOp r (.update ex.uid c.text) s.tree s.nextUid).2,
                  trace := s.trace ++ [.update ex.uid c.text], muts := s.muts + 1 }) hrest
              (mapDelete_keys_nodup k m hnd)
          refine ⟨s', stats', ?_, by simp at hsum ⊢; omega, by simpa using hdel⟩
          simp only [syncLoop, hkk, hm, if_neg htext, doMutation_noFail]
          rw [heq, filter_erase_key k _ m hnd]

theorem deleteOrphans_noFail {ε : Type} (r : String) (md : Nat) :
    ∀ (l : List (String × RoamNode)) (stats : ChildSyncStats) (s : St),
      ∃ s', deleteOrphans (noFail ε r) md l stats s
          = (s', .ok { stats with deleted := stats.deleted + l.length }) ∧
        s'.trace = s.trace ++ childOrphanOps md l := by
  intro l
  induction l with
  | nil =>
    intro stats s
    refine ⟨s, by simp [deleteOrphans], by simp [childOrphanOps]⟩
  | cons e rest ih =>
    intro stats s
    obtain ⟨s', heq, htr⟩ := ih { stats with deleted := stats.deleted + 1 }
      { tree := (applyOp r (.delete e.2.uid) (doDelay md s).tree (doDelay md s).nextUid).1,
        nextUid := (applyOp r (.delete e.2.uid) (doDelay md s).tree (doDelay md s).nextUid).2,
        trace := (doDelay md s).trace ++ [.delete e.2.uid], muts := (doDelay md s).muts + 1 }
    refine ⟨s', ?_, ?_⟩
    · simp only [deleteOrphans, doMutation_noFail]
      rw [heq]
      have : stats.deleted + 1 + rest.length = stats.deleted + (rest.length + 1) := by omega
      simp [List.length_cons]
      omega
    · rw [htr]
      simp [doDelay, childOrphanOps]

/-- C4: when every desired child's text yields a (truthy) property key,
`syncChildren` succeeds with `created + updated + skipped` equal to the
number of desired children, and `deleted` equal to the number of entries of
the key map built from the existing children whose key is absent from the
desired children's keys. -/
theorem claim_C4 {ε : Type} (r pu : String) (cfg : ChildReconcilerConfig)
    (existingChildren : List RoamNode) (newChildren : List BlockPayload) (s : St)
    (hkeys : ∀ c ∈ newChildren, (truthy (cfg.extractKey c.text)).isSome = true) :
    ∃ s' stats,
      syncChildren (noFail ε r) cfg pu existingChildren newChildren s = (s', .ok stats) ∧
      stats.created + stats.updated + stats.skipped = newChildren.length ∧
      stats.deleted = ((buildPropsAndSpecials cfg existingChildren).1.filter
          (fun e => !(decide (e.1 ∈ desiredKeys cfg newChildren)))).length := by
  rcases hbp : buildPropsAndSpecials cfg existingChildren with ⟨m, sp⟩
  have hnd : (m.map Prod.fst).Nodup := by
    have := buildProps_keys_nodup cfg existingChildren
    rw [hbp] at this
    exact this
  obtain ⟨s1, stats1, heq1, hsum1, hdel1⟩ :=
    syncLoop_allKeys (ε := ε) r cfg pu newChildren m sp
      { skipped := 0, updated := 0, created := 0, deleted := 0 } s hkeys hnd
  obtain ⟨s2, heq2, _⟩ := deleteOrphans_noFail (ε := ε) r cfg.mdelay
    (m.filter (fun e => !(decide (e.1 ∈ desiredKeys cfg newChildren)))) stats1 s1
  refine ⟨s2,
    { skipped := stats1.skipped, updated := stats1.updated, created := stats1.created,
      deleted := stats1.deleted
        + (m.filter (fun e => !(decide (e.1 ∈ desiredKeys cfg newChildren)))).length },
    ?_, ?_, ?_⟩
  · simp only [syncChildren, hbp, heq1]
    exact heq2
  · simp at hsum1 ⊢
    omega
  · simp only [hbp]
    simp at hdel1
    simp [hdel1]

/-- Witness for C4 at a concrete input (the repo's mixed-operations test
case): one skip, one update, one create, one orphan delete. -/
theorem claim_C4_witness :
    (∀ c ∈ [BlockPayload.mk "priority:: high" none, BlockPayload.mk "status:: idle" none,
        BlockPayload.mk "new-prop:: value" none],
      (truthy (ccfgB.extractKey c.text)).isSome = true) ∧
    (∃ s' stats,
      syncChildren (noFail Unit "root") ccfgB "p"
          [RoamNode.mk "priority:: high" "u1" none, RoamNode.mk "status:: active" "u2" none,
            RoamNode.mk "old-prop:: value" "u3" none]
          [BlockPayload.mk "priority:: high" none, BlockPayload.mk "status:: idle" none,
            BlockPayload.mk "new-prop:: value" none] (st0 []) = (s', .ok stats) ∧
      stats.created + stats.updated + stats.skipped = 3 ∧
      stats.deleted = ((buildPropsAndSpecials ccfgB
          [RoamNode.mk "priority:: high" "u1" none, RoamNode.mk "status:: active" "u2" none,
            RoamNode.mk "old-prop:: value" "u3" none]).1.filter
          (fun e => !(decide (e.1 ∈ desiredKeys ccfgB
            [BlockPayload.mk "priority:: high" none, BlockPayload.mk "status:: idle" none,
              BlockPayload.mk "new-prop:: value" none])))).length) := by
  refine ⟨by decide, ?_⟩
  exact claim_C4 "root" "p" ccfgB _ _ (st0 []) (by decide)

/-! ### C5: wholesale replacement of special blocks -/

theorem deleteSpecials_noFail {ε : Type} (r : String) (md : Nat) :
    ∀ (sp : List RoamNode) (stats : ChildSyncStats) (s : St),
      ∃ s', deleteSpecials (noFail ε r) md sp stats s
          = (s', .ok { stats with deleted := stats.deleted + sp.length }) ∧
        s'.trace = s.trace ++ specialDeleteOps md sp := by
  intro sp
  induction sp with
  | nil =>
    intro stats s
    refine ⟨s, by simp [deleteSpecials], by simp [specialDeleteOps]⟩
  | cons b rest ih =>
    intro stats s
    obtain ⟨s', heq, htr⟩ := ih { stats with deleted := stats.deleted + 1 }
      (doDelay md
        { tree := (applyOp r (.delete b.uid) s.tree s.nextUid).1,
          nextUid := (applyOp r (.delete b.uid) s.tree s.nextUid).2,
          trace := s.trace ++ [.delete b.uid], muts := s.muts + 1 })
    refine ⟨s', ?_, ?_⟩
    · simp only [deleteSpecials, doMutation_noFail]
      rw [heq]
      simp [List.length_cons]
      omega
    · rw [htr]
      simp [doDelay, specialDeleteOps]

/-- C5: a desired child with no (truthy) key that `isSpecialBlock`
recognises makes the pass delete every currently-tracked special node (each
deletion counted), create exactly one new block for it, and clear the
tracked special list — so a second special desired child deletes nothing
more and only creates a second block.  (The `deleted` counts below also
include the key-map orphans removed at the end of the pass.) -/
theorem claim_C5 {ε : Type} (r pu : String) (cfg : ChildReconcilerConfig)
    (existingChildren : List RoamNode) (c c' : BlockPayload) (s : St)
    (hc : truthy (cfg.extractKey c.text) = none) (hcs : cfg.special c.text = true)
    (hc' : truthy (cfg.extractKey c'.text) = none) (hcs' : cfg.special c'.text = true) :
    (∃ s', syncChildren (noFail ε r) cfg pu existingChildren [c] s
        = (s', .ok { skipped := 0, updated := 0, created := 1,
                     deleted := (buildPropsAndSpecials cfg existingChildren).2.length
                       + (buildPropsAndSpecials cfg existingChildren).1.length }) ∧
      s'.trace = s.trace
        ++ specialDeleteOps cfg.mdelay (buildPropsAndSpecials cfg existingChildren).2
        ++ [Op.create pu c, Op.delay cfg.mdelay]
        ++ childOrphanOps cfg.mdelay (buildPropsAndSpecials cfg existingChildren).1) ∧
    (∃ s'', syncChildren (noFail ε r) cfg pu existingChildren [c, c'] s
        = (s'', .ok { skipped := 0, updated := 0, created := 2,
                      deleted := (buildPropsAndSpecials cfg existingChildren).2.length
                        + (buildPropsAndSpecials cfg existingChildren).1.length })) := by
  rcases hbp : buildPropsAndSpecials cfg existingChildren with ⟨m, sp⟩
  constructor
  · obtain ⟨s1, heq1, htr1⟩ := deleteSpecials_noFail (ε := ε) r cfg.mdelay sp
      { skipped := 0, updated := 0, created := 0, deleted := 0 } s
    simp only [Nat.zero_add] at heq1
    obtain ⟨s3, heq3, htr3⟩ := deleteOrphans_noFail (ε := ε) r cfg.mdelay m
      { skipped := 0, updated := 0, created := 1, deleted := sp.length }
      (doDelay cfg.mdelay
        { tree := (applyOp r (.create pu c) s1.tree s1.nextUid).1,
          nextUid := (applyOp r (.create pu c) s1.tree s1.nextUid).2,
          trace := s1.trace ++ [.create pu c], muts := s1.muts + 1 })
    refine ⟨s3, ?_, ?_⟩
    · simp only [syncChildren, hbp, syncLoop, hc, hcs, if_true, heq1, doMutation_noFail,
        Nat.zero_add]
      rw [heq3]
    · rw [htr3]
      simp [doDelay, htr1, List.append_assoc]
  · obtain ⟨s1, heq1, htr1⟩ := deleteSpecials_noFail (ε := ε) r cfg.mdelay sp
      { skipped := 0, updated := 0, created := 0, deleted := 0 } s
    simp only [Nat.zero_add] at heq1
    obtain ⟨s3, heq3, htr3⟩ := deleteOrphans_noFail (ε := ε) r cfg.mdelay m
      { skipped := 0, updated := 0, created := 2, deleted := sp.length }
      (doDelay cfg.mdelay
        { tree := (applyOp r (.create pu c')
            (doDelay cfg.mdelay
              { tree := (applyOp r (.create pu c) s1.tree s1.nextUid).1,
                nextUid := (applyOp r (.create pu c) s1.tree s1.nextUid).2,
                trace := s1.trace ++ [.create pu c], muts := s1.muts + 1 }).tree
            (doDelay cfg.mdelay
              { tree := (applyOp r (.create pu c) s1.tree s1.nextUid).1,
                nextUid := (applyOp r (.create pu c) s1.tree s1.nextUid).2,
                trace := s1.trace ++ [.create pu c], muts := s1.muts + 1 }).nextUid).1,
          nextUid := (applyOp r (.create pu c')
            (doDelay cfg.mdelay
              { tree := (applyOp r (.create pu c) s1.tree s1.nextUid).1,
                nextUid := (applyOp r (.create pu c) s1.tree s1.nextUid).2,
                trace := s1.trace ++ [.create pu c], muts := s1.muts + 1 }).tree
            (doDelay cfg.mdelay
              { tree := (applyOp r (.create pu c) s1.tree s1.nextUid).1,
                nextUid := (applyOp r (.create pu c) s1.tree s1.nextUid).2,
                trace := s1.trace ++ [.create pu c], muts := s1.muts + 1 }).nextUid).2,
          trace := (doDelay cfg.mdelay
              { tree := (applyOp r (.create pu c) s1.tree s1.nextUid).1,
                nextUid := (applyOp r (.create pu c) s1.tree s1.nextUid).2,
                trace := s1.trace ++ [.create pu c], muts := s1.muts + 1 }).trace
            ++ [.create pu c'],
          muts := (doDelay cfg.mdelay
              { tree := (applyOp r (.create pu c) s1.tree s1.nextUid).1,
                nextUid := (applyOp r (.create pu c) s1.tree s1.nextUid).2,
                trace := s1.trace ++ [.create pu c], muts := s1.muts + 1 }).muts + 1 })
    refine ⟨s3, ?_⟩
    simp only [syncChildren, hbp, syncLoop, hc, hcs, hc', hcs', if_true, heq1,
      deleteSpecials, doMutation_noFail, Nat.zero_add]
    rw [heq3]

/-- Witness for C5 at a concrete input: two existing special-marked
children and one desired special child — both existing are deleted and
exactly one new block is created. -/
theorem claim_C5_witness :
    truthy (ccfgS.extractKey (BlockPayload.mk "comments" none).text) = none ∧
    ccfgS.special (BlockPayload.mk "comments" none).text = true ∧
    (∃ s', syncChildren (noFail Unit "root") ccfgS "p"
        [RoamNode.mk "comments" "u1" none, RoamNode.mk "comments" "u2" none]
        [BlockPayload.mk "comments" none] (st0 [])
      = (s', .ok { skipped := 0, updated := 0, created := 1, deleted := 2 })) := by
  refine ⟨rfl, rfl, ?_⟩
  obtain ⟨⟨s', heq, _⟩, _⟩ := claim_C5 (ε := Unit) "root" "p" ccfgS
    [RoamNode.mk "comments" "u1" none, RoamNode.mk "comments" "u2" none]
    (BlockPayload.mk "comments" none) (BlockPayload.mk "comments" none) (st0 []) rfl rfl rfl rfl
  exact ⟨s', heq⟩

/-! ### C6: duplicate desired keys against the shrinking map -/

theorem mapGet_mapDelete_self {α : Type} (k : String) (m : List (String × α))
    (hnd : (m.map Prod.fst).Nodup) : mapGet (mapDelete m k) k = none := by
  rw [mapDelete_eq_filter_of_nodup k m hnd, mapGet_eq_none_iff]
  intro hmem
  rcases List.mem_map.mp hmem with ⟨e, he, heq⟩
  have h := (List.mem_filter.mp he).2
  simp only [Bool.not_eq_eq_eq_not, Bool.not_true, decide_eq_false_iff_not] at h
  exact h heq

/-- C6: desired children are processed in order against a shrinking key
map.  Once a desired child with key `k` has matched an existing node
(whether skipped or updated), `k` is no longer in the map; a later desired
child with the same key is therefore treated as not found, a create is
issued for it and `created` is incremented — duplicates are neither
deduplicated nor rejected. -/
theorem claim_C6 {ε : Type} (r pu : String) (cfg : ChildReconcilerConfig)
    (c1 c2 : BlockPayload) (k : String) (m : List (String × RoamNode))
    (sp : List RoamNode) (stats : ChildSyncStats) (s : St) (n : RoamNode)
    (hk1 : truthy (cfg.extractKey c1.text) = some k)
    (hk2 : truthy (cfg.extractKey c2.text) = some k)
    (hm : mapGet m k = some n)
    (hnd : (m.map Prod.fst).Nodup) :
    (∃ s' stats', syncLoop (noFail ε r) cfg pu [c1] m sp stats s
        = (s', .ok (mapDelete m k, stats')) ∧ mapGet (mapDelete m k) k = none) ∧
    (∃ s' stats' pre, syncLoop (noFail ε r) cfg pu [c1, c2] m sp stats s
        = (s', .ok (mapDelete m k, stats')) ∧
      stats'.created = stats.created + 1 ∧
      stats'.skipped + stats'.updated = stats.skipped + stats.updated + 1 ∧
      s'.trace = s.trace ++ pre ++ [Op.create pu c2, Op.delay cfg.mdelay]) := by
  have hdel : mapGet (mapDelete m k) k = none := mapGet_mapDelete_self k m hnd
  constructor
  · by_cases htext : n.text = c1.text
    · exact ⟨s, { stats with skipped := stats.skipped + 1 },
        by simp only [syncLoop, hk1, hm, if_pos htext], hdel⟩
    · exact ⟨doDelay cfg.mdelay
        { tree := (applyOp r (Op.update n.uid c1.text) s.tree s.nextUid).1,
          nextUid := (applyOp r (Op.update n.uid c1.text) s.tree s.nextUid).2,
          trace := s.trace ++ [Op.update n.uid c1.text], muts := s.muts + 1 },
        { stats with updated := stats.updated + 1 },
        by simp only [syncLoop, hk1, hm, if_neg htext, doMutation_noFail], hdel⟩
  · by_cases htext : n.text = c1.text
    · simp only [syncLoop, hk1, hm, if_pos htext, hk2, hdel, doMutation_noFail]
      refine ⟨_, _, [], rfl, by simp, by simp; omega, by simp [doDelay]⟩
    · simp only [syncLoop, hk1, hm, if_neg htext, hk2, hdel, doMutation_noFail]
      refine ⟨_, _, [Op.update n.uid c1.text, Op.delay cfg.mdelay], rfl, by simp,
        by simp; omega, by simp [doDelay]⟩

/-- Witness for C6 at a concrete input: two desired children both keyed
`priority` against a map holding one `priority` node — the first is
matched (and consumes the key), the second creates a new block. -/
theorem claim_C6_witness :
    truthy (ccfgB.extractKey (BlockPayload.mk "priority:: high" none).text) = some "priority" ∧
    truthy (ccfgB.extractKey (BlockPayload.mk "priority:: low" none).text) = some "priority" ∧
    mapGet [("priority", RoamNode.mk "priority:: high" "u1" none)] "priority"
      = some (RoamNode.mk "priority:: high" "u1" none) ∧
    (∃ s' stats' pre, syncLoop (noFail Unit "root") ccfgB "p"
        [BlockPayload.mk "priority:: high" none, BlockPayload.mk "priority:: low" none]
        [("priority", RoamNode.mk "priority:: high" "u1" none)] []
        { skipped := 0, updated := 0, created := 0, deleted := 0 } (st0 [])
      = (s', .ok (mapDelete [("priority", RoamNode.mk "priority:: high" "u1" none)] "priority",
          stats')) ∧
      stats'.created = 0 + 1 ∧
      stats'.skipped + stats'.updated = 0 + 0 + 1 ∧
      s'.trace = (st0 []).trace ++ pre
        ++ [Op.create "p" (BlockPayload.mk "priority:: low" none), Op.delay ccfgB.mdelay]) := by
  refine ⟨rfl, rfl, rfl, ?_⟩
  exact (claim_C6 (ε := Unit) "root" "p" ccfgB
    (BlockPayload.mk "priority:: high" none) (BlockPayload.mk "priority:: low" none)
    "priority" [("priority", RoamNode.mk "priority:: high" "u1" none)] []
    { skipped := 0, updated := 0, created := 0, deleted := 0 } (st0 [])
    (RoamNode.mk "priority:: high" "u1" none) rfl rfl rfl (by simp)).2

/-! ### C7: unextractable nodes are invisible -/

theorem TraceAllowed_nil (allowed : List String) : TraceAllowed allowed [] := by
  intro op hop
  simp at hop

theorem TraceAllowed_append (allowed : List String) (t1 t2 : List Op)
    (h1 : TraceAllowed allowed t1) (h2 : TraceAllowed allowed t2) :
    TraceAllowed allowed (t1 ++ t2) := by
  intro op hop
  rcases List.mem_append.mp hop with h | h
  · exact h1 op h
  · exact h2 op h

theorem TraceAllowed_mono (allowed allowed' : List String) (t : List Op)
    (hsub : ∀ u ∈ allowed, u ∈ allowed') (h : TraceAllowed allowed t) :
    TraceAllowed allowed' t := by
  intro op hop u hu
  exact hsub u (h op hop u hu)

theorem mem_buildPropsAux_map (cfg : ChildReconcilerConfig) :
    ∀ (l : List RoamNode) (acc : List (String × RoamNode) × List RoamNode)
      (e : String × RoamNode), e ∈ (buildPropsAux cfg l acc).1 →
      e ∈ acc.1 ∨ (e.2 ∈ l ∧ truthy (cfg.extractKey e.2.text) = some e.1) := by
  intro l
  induction l with
  | nil => intro acc e he; left; simpa [buildPropsAux] using he
  | cons child rest ih =>
    intro acc e he
    rcases hk : truthy (cfg.extractKey child.text) with _ | key
    · by_cases hs : cfg.special child.text = true
      · simp only [buildPropsAux, hk, if_pos hs] at he
        rcases ih _ e he with h | h
        · left; exact h
        · right; exact ⟨by simp [h.1], h.2⟩
      · simp only [buildPropsAux, hk, if_neg hs] at he
        rcases ih _ e he with h | h
        · left; exact h
        · right; exact ⟨by simp [h.1], h.2⟩
    · simp only [buildPropsAux, hk] at he
      rcases ih _ e he with h | h
      · rcases mem_mapSet key child acc.1 e h with h1 | h1
        · left; exact h1
        · right
          subst h1
          exact ⟨by simp, hk⟩
      · right; exact ⟨by simp [h.1], h.2⟩

theorem mem_buildPropsAux_specials (cfg : ChildReconcilerConfig) :
    ∀ (l : List RoamNode) (acc : List (String × RoamNode) × List RoamNode)
      (b : RoamNode), b ∈ (buildPropsAux cfg l acc).2 →
      b ∈ acc.2 ∨ (b ∈ l ∧ truthy (cfg.extractKey b.text) = none ∧ cfg.special b.text = true) := by
  intro l
  induction l with
  | nil => intro acc b hb; left; simpa [buildPropsAux] using hb
  | cons child rest ih =>
    intro acc b hb
    rcases hk : truthy (cfg.extractKey child.text) with _ | key
    · by_cases hs : cfg.special child.text = true
      · simp only [buildPropsAux, hk, if_pos hs] at hb
        rcases ih _ b hb with h | h
        · rcases List.mem_append.mp h with h1 | h1
          · left; exact h1
          · right
            have : b = child := by simpa using h1
            subst this
            exact ⟨by simp, hk, hs⟩
        · right; exact ⟨by simp [h.1], h.2⟩
      · simp only [buildPropsAux, hk, if_neg hs] at hb
        rcases ih _ b hb with h | h
        · left; exact h
        · right; exact ⟨by simp [h.1], h.2⟩
    · simp only [buildPropsAux, hk] at hb
      rcases ih _ b hb with h | h
      · left; exact h
      · right; exact ⟨by simp [h.1], h.2⟩

theorem mem_buildExistingMapAux {T : Type} (cfg : ReconcilerConfig T) :
    ∀ (l : List RoamNode) (acc : List (String × RoamNode)) (e : String × RoamNode),
      e ∈ buildExistingMapAux cfg l acc →
      e ∈ acc ∨ (e.2 ∈ l ∧ truthy (cfg.extractIdFromBlock e.2) = some e.1) := by
  intro l
  induction l with
  | nil => intro acc e he; left; simpa [buildExistingMapAux] using he
  | cons node rest ih =>
    intro acc e he
    rcases hk : truthy (cfg.extractIdFromBlock node) with _ | id
    · simp only [buildExistingMapAux, hk] at he
      rcases ih _ e he with h | h
      · left; exact h
      · right; exact ⟨by simp [h.1], h.2⟩
    · simp only [buildExistingMapAux, hk] at he
      rcases ih _ e he with h | h
      · rcases mem_mapSet id node acc e h with h1 | h1
        · left; exact h1
        · right
          subst h1
          exact ⟨by simp, hk⟩
      · right; exact ⟨by simp [h.1], h.2⟩

theorem mem_buildExistingMap {T : Type} (cfg : ReconcilerConfig T) (l : List RoamNode)
    (e : String × RoamNode) (he : e ∈ buildExistingMap cfg l) :
    e.2 ∈ l ∧ truthy (cfg.extractIdFromBlock e.2) = some e.1 := by
  rcases mem_buildExistingMapAux cfg l [] e he with h | h
  · simp at h
  · exact h

theorem mem_mapDelete {α : Type} (k : String) :
    ∀ (m : List (String × α)) (e : String × α), e ∈ mapDelete m k → e ∈ m := by
  intro m
  induction m with
  | nil => intro e he; simpa [mapDelete] using he
  | cons f rest ih =>
    intro e he
    by_cases h : f.1 = k
    · rcases f with ⟨fk, fv⟩
      simp only at h
      simp only [mapDelete, if_pos h] at he
      exact List.mem_cons_of_mem _ he
    · rcases f with ⟨fk, fv⟩
      simp only at h
      simp only [mapDelete, if_neg h] at he
      rcases List.mem_cons.mp he with h1 | h1
      · simp [h1]
      · exact List.mem_cons_of_mem _ (ih e h1)

theorem mapGet_mem {α : Type} (k : String) :
    ∀ (m : List (String × α)) (v : α), mapGet m k = some v → (k, v) ∈ m := by
  intro m
  induction m with
  | nil => intro v hv; simp [mapGet] at hv
  | cons f rest ih =>
    intro v hv
    rcases f with ⟨fk, fv⟩
    by_cases h : fk = k
    · simp only [mapGet, if_pos h] at hv
      obtain rfl : fv = v := Option.some.inj hv
      subst h
      simp
    · simp only [mapGet, if_neg h] at hv
      exact List.mem_cons_of_mem _ (ih v hv)

theorem uid_mem_deepUidsNode (n : RoamNode) : n.uid ∈ deepUidsNode n := by
  cases n with
  | mk t u c => simp [deepUidsNode, RoamNode.uid]

theorem deepUidsForest_cons (n : RoamNode) (ns : List RoamNode) :
    deepUidsForest (n :: ns) = deepUidsNode n ++ deepUidsForest ns := rfl

theorem mem_deepUidsForest_of_mem :
    ∀ (l : List RoamNode) (x : RoamNode), x ∈ l → ∀ u ∈ deepUidsNode x, u ∈ deepUidsForest l := by
  intro l
  induction l with
  | nil => intro x hx; simp at hx
  | cons y rest ih =>
    intro x hx u hu
    rcases List.mem_cons.mp hx with h | h
    · subst h
      rw [deepUidsForest_cons]
      exact List.mem_append.mpr (Or.inl hu)
    · rw [deepUidsForest_cons]
      exact List.mem_append.mpr (Or.inr (ih x h u hu))

theorem childUid_mem_deepUidsNode (n : RoamNode) :
    ∀ c ∈ n.children.getD [], ∀ u ∈ deepUidsNode c, u ∈ deepUidsNode n := by
  intro c hc u hu
  cases n with
  | mk t un ch =>
    cases ch with
    | none => simp [RoamNode.children] at hc
    | some l =>
      simp only [RoamNode.children, Option.getD_some] at hc
      simp only [deepUidsNode, deepUidsOpt]
      exact List.mem_cons_of_mem _ (mem_deepUidsForest_of_mem l c hc u hu)

theorem deep_nodup_inj :
    ∀ (l : List RoamNode), (deepUidsForest l).Nodup →
      ∀ a ∈ l, ∀ b ∈ l, ∀ u, u ∈ deepUidsNode a → u ∈ deepUidsNode b → a = b := by
  intro l
  induction l with
  | nil => intro _ a ha; simp at ha
  | cons x rest ih =>
    intro hnd a ha b hb u hua hub
    have hnd' : (deepUidsNode x ++ deepUidsForest rest).Nodup := by
      rw [deepUidsForest_cons] at hnd
      exact hnd
    rcases List.nodup_append.mp hnd' with ⟨nd1, nd2, disj⟩
    rcases List.mem_cons.mp ha with h1 | h1 <;> rcases List.mem_cons.mp hb with h2 | h2
    · rw [h1, h2]
    · subst h1
      exact absurd (mem_deepUidsForest_of_mem rest b h2 u hub) (disj hua)
    · subst h2
      exact absurd (mem_deepUidsForest_of_mem rest a h1 u hua) (disj hub)
    · exact ih nd2 a h1 b h2 u hua hub

theorem TraceAllowed_cons (allowed : List String) (op : Op) (t : List Op)
    (hop : ∀ u, op.target? = some u → u ∈ allowed) (ht : TraceAllowed allowed t) :
    TraceAllowed allowed (op :: t) := by
  intro o ho u hu
  rcases List.mem_cons.mp ho with h | h
  · subst h; exact hop u hu
  · exact ht o h u hu

theorem specialDeleteOps_targets (md : Nat) (sp : List RoamNode) :
    TraceAllowed (sp.map RoamNode.uid) (specialDeleteOps md sp) := by
  intro op hop u hu
  rcases List.mem_flatMap.mp hop with ⟨b, hb, hob⟩
  rcases List.mem_cons.mp hob with h | h
  · subst h
    simp only [Op.target?, Option.some.injEq] at hu
    subst hu
    exact List.mem_map.mpr ⟨b, hb, rfl⟩
  · have h' := List.mem_singleton.mp h
    subst h'
    simp [Op.target?] at hu

theorem childOrphanOps_targets (md : Nat) (l : List (String × RoamNode)) :
    TraceAllowed (l.map (fun e => e.2.uid)) (childOrphanOps md l) := by
  intro op hop u hu
  rcases List.mem_flatMap.mp hop with ⟨e, he, hoe⟩
  rcases List.mem_cons.mp hoe with h | h
  · subst h; simp [Op.target?] at hu
  · have h' := List.mem_singleton.mp h
    subst h'
    simp only [Op.target?, Option.some.injEq] at hu
    subst hu
    exact List.mem_map.mpr ⟨e, he, rfl⟩

theorem orphanOps_targets (md : Nat) (l : List (String × RoamNode)) :
    TraceAllowed (l.map (fun e => e.2.uid)) (orphanOps md l) := by
  intro op hop u hu
  rcases List.mem_flatMap.mp hop with ⟨e, he, hoe⟩
  rcases List.mem_cons.mp hoe with h | h
  · subst h
    simp only [Op.target?, Option.some.injEq] at hu
    subst hu
    exact List.mem_map.mpr ⟨e, he, rfl⟩
  · have h' := List.mem_singleton.mp h
    subst h'
    simp [Op.target?] at hu

theorem syncLoop_targets {ε : Type} (r pu : String) (cfg : ChildReconcilerConfig) :
    ∀ (cs : List BlockPayload) (m : List (String × RoamNode)) (sp : List RoamNode)
      (stats : ChildSyncStats) (s : St),
      ∃ s' m' stats' tail,
        syncLoop (noFail ε r) cfg pu cs m sp stats s = (s', .ok (m', stats')) ∧
        (∀ e ∈ m', e ∈ m) ∧
        s'.trace = s.trace ++ tail ∧
        TraceAllowed (pu :: (m.map (fun e => e.2.uid) ++ sp.map RoamNode.uid)) tail := by
  intro cs
  induction cs with
  | nil =>
    intro m sp stats s
    exact ⟨s, m, stats, [], by simp [syncLoop], fun e he => he, by simp, TraceAllowed_nil _⟩
  | cons c rest ih =>
    intro m sp stats s
    rcases hk : truthy (cfg.extractKey c.text) with _ | k
    · by_cases hs : cfg.special c.text = true
      · obtain ⟨s1, heq1, htr1⟩ := deleteSpecials_noFail (ε := ε) r cfg.mdelay sp stats s
        obtain ⟨s', m', stats', tail, heq, hsub, htr, hall⟩ := ih m []
          { skipped := stats.skipped, updated := stats.updated,
            created := stats.created + 1, deleted := stats.deleted + sp.length }
          (doDelay cfg.mdelay
            { tree := (applyOp r (.create pu c) s1.tree s1.nextUid).1,
              nextUid := (applyOp r (.create pu c) s1.tree s1.nextUid).2,
              trace := s1.trace ++ [.create pu c], muts := s1.muts + 1 })
        refine ⟨s', m', stats',
          specialDeleteOps cfg.mdelay sp ++ Op.create pu c :: Op.delay cfg.mdelay :: tail,
          ?_, hsub, ?_, ?_⟩
        · simp only [syncLoop, hk, if_pos hs, heq1, doMutation_noFail]
          exact heq
        · rw [htr]
          simp [doDelay, htr1]
        · refine TraceAllowed_append _ _ _ ?_ ?_
          · refine TraceAllowed_mono _ _ _ (fun u hu => ?_) (specialDeleteOps_targets cfg.mdelay sp)
            exact List.mem_cons.mpr (Or.inr (List.mem_append.mpr (Or.inr hu)))
          · refine TraceAllowed_cons _ _ _ (fun u hu => ?_) ?_
            · simp only [Op.target?, Option.some.injEq] at hu
              subst hu; simp
            · refine TraceAllowed_cons _ _ _ (fun u hu => by simp [Op.target?] at hu) ?_
              refine TraceAllowed_mono _ _ _ (fun u hu => ?_) hall
              rcases List.mem_cons.mp hu with h | h
              · exact List.mem_cons.mpr (Or.inl h)
              · exact List.mem_cons.mpr
                  (Or.inr (List.mem_append.mpr (Or.inl (by simpa using h))))
      · obtain ⟨s', m', stats', tail, heq, hsub, htr, hall⟩ := ih m sp stats s
        refine ⟨s', m', stats', tail, ?_, hsub, htr, hall⟩
        simp only [syncLoop, hk, if_neg hs]
        exact heq
    · rcases hm : mapGet m k with _ | ex
      · obtain ⟨s', m', stats', tail, heq, hsub, htr, hall⟩ := ih m sp
          { stats with created := stats.created + 1 }
          (doDelay cfg.mdelay
            { tree := (applyOp r (.create pu c) s.tree s.nextUid).1,
              nextUid := (applyOp r (.create pu c) s.tree s.nextUid).2,
              trace := s.trace ++ [.create pu c], muts := s.muts + 1 })
        refine ⟨s', m', stats', Op.create pu c :: Op.delay cfg.mdelay :: tail, ?_, hsub, ?_, ?_⟩
        · simp only [syncLoop, hk, hm, doMutation_noFail]
          exact heq
        · rw [htr]
          simp [doDelay]
        · refine TraceAllowed_cons _ _ _ (fun u hu => ?_) ?_
          · simp only [Op.target?, Option.some.injEq] at hu
            subst hu; simp
          · exact TraceAllowed_cons _ _ _ (fun u hu => by simp [Op.target?] at hu) hall
      · by_cases ht : ex.text = c.text
        · obtain ⟨s', m', stats', tail, heq, hsub, htr, hall⟩ := ih (mapDelete m k) sp
            { stats with skipped := stats.skipped + 1 } s
          refine ⟨s', m', stats', tail, ?_, fun e he => mem_mapDelete k m e (hsub e he), htr, ?_⟩
          · simp only [syncLoop, hk, hm, if_pos ht]
            exact heq
          · refine TraceAllowed_mono _ _ _ (fun u hu => ?_) hall
            simp only [List.mem_cons, List.mem_append, List.mem_map] at hu ⊢
            rcases hu with h | h | h
            · exact Or.inl h
            · rcases h with ⟨e, he, heq'⟩
              exact Or.inr (Or.inl ⟨e, mem_mapDelete k m e he, heq'⟩)
            · exact Or.inr (Or.inr h)
        · obtain ⟨s', m', stats', tail, heq, hsub, htr, hall⟩ := ih (mapDelete m k) sp
            { stats with updated := stats.updated + 1 }
            (doDelay cfg.mdelay
              { tree := (applyOp r (.update ex.uid c.text) s.tree s.nextUid).1,
                nextUid := (applyOp r (.update ex.uid c.text) s.tree s.nextUid).2,
                trace := s.trace ++ [.update ex.uid c.text], muts := s.muts + 1 })
          refine ⟨s', m', stats', Op.update ex.uid c.text :: Op.delay cfg.mdelay :: tail,
            ?_, fun e he => mem_mapDelete k m e (hsub e he), ?_, ?_⟩
          · simp only [syncLoop, hk, hm, if_neg ht, doMutation_noFail]
            exact heq
          · rw [htr]
            simp [doDelay]
          · refine TraceAllowed_cons _ _ _ (fun u hu => ?_) ?_
            · simp only [Op.target?, Option.some.injEq] at hu
              subst hu
              have : (k, ex) ∈ m := mapGet_mem k m ex hm
              simp only [List.mem_cons, List.mem_append, List.mem_map]
              exact Or.inr (Or.inl ⟨(k, ex), this, rfl⟩)
            · refine TraceAllowed_cons _ _ _ (fun u hu => by simp [Op.target?] at hu) ?_
              refine TraceAllowed_mono _ _ _ (fun u hu => ?_) hall
              simp only [List.mem_cons, List.mem_append, List.mem_map] at hu ⊢
              rcases hu with h | h | h
              · exact Or.inl h
              · rcases h with ⟨e, he, heq'⟩
                exact Or.inr (Or.inl ⟨e, mem_mapDelete k m e he, heq'⟩)
              · exact Or.inr (Or.inr h)

theorem syncChildren_targets {ε : Type} (r pu : String) (cfg : ChildReconcilerConfig)
    (existingChildren : List RoamNode) (newChildren : List BlockPayload) (s : St) :
    ∃ s' stats tail,
      syncChildren (noFail ε r) cfg pu existingChildren newChildren s = (s', .ok stats) ∧
      s'.trace = s.trace ++ tail ∧
      TraceAllowed (pu :: existingChildren.map RoamNode.uid) tail := by
  rcases hbp : buildPropsAndSpecials cfg existingChildren with ⟨m, sp⟩
  obtain ⟨s1, m', stats', tail1, heq1, hsub, htr1, hall1⟩ :=
    syncLoop_targets (ε := ε) r pu cfg newChildren m sp
      { skipped := 0, updated := 0, created := 0, deleted := 0 } s
  obtain ⟨s2, heq2, htr2⟩ := deleteOrphans_noFail (ε := ε) r cfg.mdelay m' stats' s1
  have hmval : ∀ e ∈ m, e.2 ∈ existingChildren := by
    intro e he
    have h := mem_buildPropsAux_map cfg existingChildren ([], []) e
      (by rw [show buildPropsAux cfg existingChildren ([], []) = (m, sp) from hbp]; exact he)
    rcases h with h | h
    · simp at h
    · exact h.1
  have hspval : ∀ b ∈ sp, b ∈ existingChildren := by
    intro b hb
    have h := mem_buildPropsAux_specials cfg existingChildren ([], []) b
      (by rw [show buildPropsAux cfg existingChildren ([], []) = (m, sp) from hbp]; exact hb)
    rcases h with h | h
    · simp at h
    · exact h.1
  refine ⟨s2,
    { skipped := stats'.skipped, updated := stats'.updated, created := stats'.created,
      deleted := stats'.deleted + m'.length },
    tail1 ++ childOrphanOps cfg.mdelay m', ?_, ?_, ?_⟩
  · simp only [syncChildren, hbp, heq1]
    exact heq2
  · rw [htr2, htr1, List.append_assoc]
  · refine TraceAllowed_append _ _ _ ?_ ?_
    · refine TraceAllowed_mono _ _ _ (fun u hu => ?_) hall1
      rcases List.mem_cons.mp hu with h | h
      · exact List.mem_cons.mpr (Or.inl h)
      · refine List.mem_cons.mpr (Or.inr ?_)
        rcases List.mem_append.mp h with h1 | h1
        · rcases List.mem_map.mp h1 with ⟨e, he, heq'⟩
          exact List.mem_map.mpr ⟨e.2, hmval e he, heq'⟩
        · rcases List.mem_map.mp h1 with ⟨b, hb, heq'⟩
          exact List.mem_map.mpr ⟨b, hspval b hb, heq'⟩
    · refine TraceAllowed_mono _ _ _ (fun u hu => ?_) (childOrphanOps_targets cfg.mdelay m')
      rcases List.mem_map.mp hu with ⟨e, he, heq'⟩
      exact List.mem_cons.mpr (Or.inr (List.mem_map.mpr ⟨e.2, hmval e (hsub e he), heq'⟩))

theorem updateExistingBlock_targets {ε T : Type} (r : String) (cfg : ReconcilerConfig T)
    (ccfg : Option ChildReconcilerConfig) (existing : RoamNode) (newBlock : BlockPayload)
    (s : St) :
    ∃ s' tail, updateExistingBlock (noFail ε r) cfg ccfg existing newBlock s = (s', .ok ()) ∧
      s'.trace = s.trace ++ tail ∧ TraceAllowed (deepUidsNode existing) tail := by
  have hchild : ∀ (pu : String), pu = existing.uid →
      ∀ u ∈ pu :: (existing.children.getD []).map RoamNode.uid, u ∈ deepUidsNode existing := by
    intro pu hpu u hu
    rcases List.mem_cons.mp hu with h | h
    · subst h; rw [hpu]; exact uid_mem_deepUidsNode existing
    · rcases List.mem_map.mp h with ⟨cc, hcc, heq'⟩
      subst heq'
      exact childUid_mem_deepUidsNode existing cc hcc cc.uid (uid_mem_deepUidsNode cc)
  by_cases htxt : existing.text = newBlock.text
  · -- no text update
    have hcond : ¬(existing.text ≠ newBlock.text) := fun hh => hh htxt
    rcases ccfg with _ | c
    · refine ⟨s, [], ?_, by simp, TraceAllowed_nil _⟩
      simp only [updateExistingBlock, if_neg hcond]
    · rcases hmc : newBlock.children with _ | desired
      · refine ⟨s, [], ?_, by simp, TraceAllowed_nil _⟩
        simp only [updateExistingBlock, if_neg hcond, hmc]
      · obtain ⟨s', stats, tail, heq, htr, hall⟩ :=
          syncChildren_targets (ε := ε) r existing.uid c (existing.children.getD []) desired s
        refine ⟨s', tail, ?_, htr, ?_⟩
        · simp only [updateExistingBlock, if_neg hcond, hmc, heq]
        · exact TraceAllowed_mono _ _ _ (hchild existing.uid rfl) hall
  · -- text update first
    set s1 := doDelay cfg.mdelay
      { tree := (applyOp r (.update existing.uid newBlock.text) s.tree s.nextUid).1,
        nextUid := (applyOp r (.update existing.uid newBlock.text) s.tree s.nextUid).2,
        trace := s.trace ++ [.update existing.uid newBlock.text], muts := s.muts + 1 } with hs1
    have htr1 : s1.trace = s.trace ++ [Op.update existing.uid newBlock.text, Op.delay cfg.mdelay] := by
      rw [hs1]; simp [doDelay]
    have hallupd : TraceAllowed (deepUidsNode existing)
        [Op.update existing.uid newBlock.text, Op.delay cfg.mdelay] := by
      refine TraceAllowed_cons _ _ _ (fun u hu => ?_) ?_
      · simp only [Op.target?, Option.some.injEq] at hu
        subst hu; exact uid_mem_deepUidsNode existing
      · exact TraceAllowed_cons _ _ _ (fun u hu => by simp [Op.target?] at hu) (TraceAllowed_nil _)
    rcases ccfg with _ | c
    · refine ⟨s1, [Op.update existing.uid newBlock.text, Op.delay cfg.mdelay], ?_, htr1, hallupd⟩
      simp only [updateExistingBlock, if_pos htxt, doMutation_noFail, ← hs1]
    · rcases hmc : newBlock.children with _ | desired
      · refine ⟨s1, [Op.update existing.uid newBlock.text, Op.delay cfg.mdelay], ?_, htr1, hallupd⟩
        simp only [updateExistingBlock, if_pos htxt, doMutation_noFail, hmc, ← hs1]
      · obtain ⟨s', stats, tail, heq, htr, hall⟩ :=
          syncChildren_targets (ε := ε) r existing.uid c (existing.children.getD []) desired s1
        refine ⟨s', [Op.update existing.uid newBlock.text, Op.delay cfg.mdelay] ++ tail, ?_, ?_, ?_⟩
        · simp only [updateExistingBlock, if_pos htxt, doMutation_noFail, hmc, ← hs1,
            heq]
        · rw [htr, htr1, List.append_assoc]
        · exact TraceAllowed_append _ _ _ hallupd
            (TraceAllowed_mono _ _ _ (hchild existing.uid rfl) hall)

theorem processItems_targets {ε T : Type} (r : String) (cfg : ReconcilerConfig T)
    (ccfg : Option ChildReconcilerConfig) (pu : String)
    (existingMap : List (String × RoamNode)) :
    ∀ (items : List T) (seen : List String) (stats : SyncStats) (s : St),
      ∃ s' res tail,
        processItems (noFail ε r) cfg ccfg pu existingMap items seen stats s = (s', .ok res) ∧
        s'.trace = s.trace ++ tail ∧
        TraceAllowed (pu :: existingMap.flatMap (fun e => deepUidsNode e.2)) tail := by
  intro items
  induction items with
  | nil =>
    intro seen stats s
    exact ⟨s, (seen, stats), [], by simp [processItems], by simp, TraceAllowed_nil _⟩
  | cons item rest ih =>
    intro seen stats s
    rcases hget : mapGet existingMap (cfg.extractId item) with _ | node
    · obtain ⟨s', res, tail, heq, htr, hall⟩ := ih (seen.insert (cfg.extractId item))
        { stats with created := stats.created + 1 }
        { tree := (applyOp r (.create pu (cfg.buildBlock item)) s.tree s.nextUid).1,
          nextUid := (applyOp r (.create pu (cfg.buildBlock item)) s.tree s.nextUid).2,
          trace := s.trace ++ [.create pu (cfg.buildBlock item)], muts := s.muts + 1 }
      refine ⟨s', res, Op.create pu (cfg.buildBlock item) :: tail, ?_, ?_, ?_⟩
      · simp only [processItems, hget, createNewBlock, doMutation_noFail]
        exact heq
      · rw [htr]
        simp
      · refine TraceAllowed_cons _ _ _ (fun u hu => ?_) hall
        simp only [Op.target?, Option.some.injEq] at hu
        subst hu
        simp
    · by_cases hu : isUnchanged node (cfg.buildBlock item) = true
      · obtain ⟨s', res, tail, heq, htr, hall⟩ := ih (seen.insert (cfg.extractId item))
          { stats with skipped := stats.skipped + 1 } s
        refine ⟨s', res, tail, ?_, htr, hall⟩
        simp only [processItems, hget, if_pos hu]
        exact heq
      · obtain ⟨s1, tail1, hequ, htru, hallu⟩ :=
          updateExistingBlock_targets (ε := ε) r cfg ccfg node (cfg.buildBlock item) s
        obtain ⟨s', res, tail, heq, htr, hall⟩ := ih (seen.insert (cfg.extractId item))
          { stats with updated := stats.updated + 1 } s1
        have hnodemem : (cfg.extractId item, node) ∈ existingMap :=
          mapGet_mem (cfg.extractId item) existingMap node hget
        refine ⟨s', res, tail1 ++ tail, ?_, ?_, ?_⟩
        · simp only [processItems, hget, if_neg hu, hequ]
          exact heq
        · rw [htr, htru, List.append_assoc]
        · refine TraceAllowed_append _ _ _ ?_ hall
          refine TraceAllowed_mono _ _ _ (fun u hu2 => ?_) hallu
          refine List.mem_cons.mpr (Or.inr ?_)
          exact List.mem_flatMap.mpr ⟨(cfg.extractId item, node), hnodemem, hu2⟩

theorem reconcile_targets {ε T : Type} (r : String) (cfg : ReconcilerConfig T)
    (ccfg : Option ChildReconcilerConfig) (items : List T) (s : St) :
    ∃ s' stats tail,
      reconcile (noFail ε r) cfg ccfg r items s = (s', .ok stats) ∧
      s'.trace = s.trace ++ tail ∧
      TraceAllowed (r :: (buildExistingMap cfg s.tree).flatMap (fun e => deepUidsNode e.2))
        tail := by
  obtain ⟨s1, res, tail1, heq1, htr1, hall1⟩ :=
    processItems_targets (ε := ε) r cfg ccfg r (buildExistingMap cfg s.tree) items []
      { total := items.length, skipped := 0, created := 0, updated := 0, deleted := 0 } s
  rcases res with ⟨seenIds, stats1⟩
  obtain ⟨h2ok, h2tr⟩ :=
    removeObsolete_noFail (ε := ε) r cfg seenIds (buildExistingMap cfg s.tree) 0 s1
  rcases hro : removeObsolete (noFail ε r) cfg (buildExistingMap cfg s.tree) seenIds 0 s1
    with ⟨s2, res2⟩
  rw [hro] at h2ok h2tr
  simp only at h2ok h2tr
  refine ⟨s2, { stats1 with
      deleted := (obsoleteEntries cfg (buildExistingMap cfg s.tree) seenIds).length },
    tail1 ++ orphanOps cfg.mdelay (obsoleteEntries cfg (buildExistingMap cfg s.tree) seenIds),
    ?_, ?_, ?_⟩
  · simp only [reconcile, heq1, hro]
    subst h2ok
    simp
  · rw [h2tr, htr1, List.append_assoc]
  · refine TraceAllowed_append _ _ _ hall1 ?_
    refine TraceAllowed_mono _ _ _ (fun u hu => ?_)
      (orphanOps_targets cfg.mdelay (obsoleteEntries cfg (buildExistingMap cfg s.tree) seenIds))
    rcases List.mem_map.mp hu with ⟨e, he, heq'⟩
    have hem : e ∈ buildExistingMap cfg s.tree := (List.filter_sublist _).subset he
    refine List.mem_cons.mpr (Or.inr (List.mem_flatMap.mpr ⟨e, hem, ?_⟩))
    subst heq'
    exact uid_mem_deepUidsNode e.2

/-- C7: an existing top-level node for which `extractIdFromBlock` returns
absent is excluded from the identifier map and no backend mutation of the
pass targets its uid — it is never updated or deleted, and nothing is
created under it.  (Assumes the backend invariants that uids in the fetched
tree are pairwise distinct and that a child node's uid differs from the
root parent's.) -/
theorem claim_C7 {ε T : Type} (r : String) (cfg : ReconcilerConfig T)
    (ccfg : Option ChildReconcilerConfig) (items : List T) (s : St) (n : RoamNode)
    (hmem : n ∈ s.tree) (hext : cfg.extractIdFromBlock n = none)
    (hnd : (deepUidsForest s.tree).Nodup) (hne : n.uid ≠ r) :
    (∀ id, mapGet (buildExistingMap cfg s.tree) id ≠ some n) ∧
    (∃ s' stats tail,
      reconcile (noFail ε r) cfg ccfg r items s = (s', .ok stats) ∧
      s'.trace = s.trace ++ tail ∧
      ∀ op ∈ tail, ∀ u, op.target? = some u → u ≠ n.uid) := by
  have hnotin : ∀ e ∈ buildExistingMap cfg s.tree, e.2 ≠ n := by
    intro e he hen
    have h := (mem_buildExistingMap cfg s.tree e he).2
    rw [hen, hext] at h
    simp [truthy] at h
  constructor
  · intro id hid
    have hmem' : (id, n) ∈ buildExistingMap cfg s.tree :=
      mapGet_mem id (buildExistingMap cfg s.tree) n hid
    exact hnotin (id, n) hmem' rfl
  · obtain ⟨s', stats, tail, heq, htr, hall⟩ :=
      reconcile_targets (ε := ε) r cfg ccfg items s
    refine ⟨s', stats, tail, heq, htr, ?_⟩
    intro op hop u hu hun
    subst hun
    have hmemallowed := hall op hop n.uid hu
    rcases List.mem_cons.mp hmemallowed with h | h
    · exact hne h
    · rcases List.mem_flatMap.mp h with ⟨e, he, hdeep⟩
      have hetree : e.2 ∈ s.tree := (mem_buildExistingMap cfg s.tree e he).1
      have : e.2 = n :=
        deep_nodup_inj s.tree hnd e.2 hetree n hmem n.uid hdeep (uid_mem_deepUidsNode n)
      exact hnotin e he this

/-- Witness for C7 at a concrete input: a node with unextractable text in
the tree is untouched by a pass that skips one item — no operation targets
its uid. -/
theorem claim_C7_witness :
    ((RoamNode.mk "random block" "u9" none) ∈
      [nodeW, RoamNode.mk "random block" "u9" none]) ∧
    cfgW.extractIdFromBlock (RoamNode.mk "random block" "u9" none) = none ∧
    ((∀ id, mapGet (buildExistingMap cfgW
        [nodeW, RoamNode.mk "random block" "u9" none]) id
        ≠ some (RoamNode.mk "random block" "u9" none)) ∧
    (∃ s' stats tail,
      reconcile (noFail Unit "root") cfgW none "root" ["1"]
          (st0 [nodeW, RoamNode.mk "random block" "u9" none]) = (s', .ok stats) ∧
      s'.trace = (st0 [nodeW, RoamNode.mk "random block" "u9" none]).trace ++ tail ∧
      ∀ op ∈ tail, ∀ u, op.target? = some u →
        u ≠ (RoamNode.mk "random block" "u9" none).uid)) := by
  refine ⟨List.mem_cons_of_mem _ (List.mem_singleton.mpr rfl), rfl, ?_⟩
  exact claim_C7 (ε := Unit) "root" cfgW none ["1"]
    (st0 [nodeW, RoamNode.mk "random block" "u9" none])
    (RoamNode.mk "random block" "u9" none)
    (List.mem_cons_of_mem _ (List.mem_singleton.mpr rfl)) rfl (by decide) (by decide)

/-! ### C10: empty-string extraction behaves like absent extraction -/

theorem syncChildren_targets_fine {ε : Type} (r pu : String) (cfg : ChildReconcilerConfig)
    (existingChildren : List RoamNode) (newChildren : List BlockPayload) (s : St) :
    ∃ s' stats tail,
      syncChildren (noFail ε r) cfg pu existingChildren newChildren s = (s', .ok stats) ∧
      s'.trace = s.trace ++ tail ∧
      TraceAllowed (pu ::
        ((buildPropsAndSpecials cfg existingChildren).1.map (fun e => e.2.uid)
          ++ (buildPropsAndSpecials cfg existingChildren).2.map RoamNode.uid)) tail := by
  rcases hbp : buildPropsAndSpecials cfg existingChildren with ⟨m, sp⟩
  obtain ⟨s1, m', stats', tail1, heq1, hsub, htr1, hall1⟩ :=
    syncLoop_targets (ε := ε) r pu cfg newChildren m sp
      { skipped := 0, updated := 0, created := 0, deleted := 0 } s
  obtain ⟨s2, heq2, htr2⟩ := deleteOrphans_noFail (ε := ε) r cfg.mdelay m' stats' s1
  refine ⟨s2,
    { skipped := stats'.skipped, updated := stats'.updated, created := stats'.created,
      deleted := stats'.deleted + m'.length },
    tail1 ++ childOrphanOps cfg.mdelay m', ?_, ?_, ?_⟩
  · simp only [syncChildren, hbp, heq1]
    exact heq2
  · rw [htr2, htr1, List.append_assoc]
  · refine TraceAllowed_append _ _ _ hall1 ?_
    refine TraceAllowed_mono _ _ _ (fun u hu => ?_) (childOrphanOps_targets cfg.mdelay m')
    rcases List.mem_map.mp hu with ⟨e, he, heq'⟩
    exact List.mem_cons.mpr (Or.inr (List.mem_append.mpr
      (Or.inl (List.mem_map.mpr ⟨e, hsub e he, heq'⟩))))

/-- C10 (amended): a top-level node whose extracted id is the empty string,
and a property child whose extracted key is the empty string, are treated
exactly like nodes whose extraction returns absent — the truthiness guard
excludes them from the identifier/key map.  The top-level node is never
targeted by any mutation of the pass.  A child with empty-string key that
`isSpecialBlock` does not recognise is likewise never targeted; one that
`isSpecialBlock` recognises can still be deleted by the special-block
replacement path (see the counterexample). -/
theorem claim_C10 {ε T : Type} (r : String) (cfg : ReconcilerConfig T)
    (ccfg : Option ChildReconcilerConfig) (items : List T) (s : St) (n : RoamNode)
    (ccfg2 : ChildReconcilerConfig) (pu : String) (existingChildren : List RoamNode)
    (newChildren : List BlockPayload) (s2 : St) (c : RoamNode)
    (hmem : n ∈ s.tree) (hext : cfg.extractIdFromBlock n = some "")
    (hnd : (deepUidsForest s.tree).Nodup) (hne : n.uid ≠ r)
    (hcmem : c ∈ existingChildren) (hckey : ccfg2.extractKey c.text = some "")
    (hcns : ccfg2.special c.text = false)
    (hcnd : (existingChildren.map RoamNode.uid).Nodup) (hcne : c.uid ≠ pu) :
    (∀ id, mapGet (buildExistingMap cfg s.tree) id ≠ some n) ∧
    (∃ s' stats tail,
      reconcile (noFail ε r) cfg ccfg r items s = (s', .ok stats) ∧
      s'.trace = s.trace ++ tail ∧
      ∀ op ∈ tail, ∀ u, op.target? = some u → u ≠ n.uid) ∧
    (∀ e ∈ (buildPropsAndSpecials ccfg2 existingChildren).1, e.2 ≠ c) ∧
    (∃ s' stats tail,
      syncChildren (noFail ε r) ccfg2 pu existingChildren newChildren s2 = (s', .ok stats) ∧
      s'.trace = s2.trace ++ tail ∧
      ∀ op ∈ tail, ∀ u, op.target? = some u → u ≠ c.uid) := by
  have htruthy : truthy (cfg.extractIdFromBlock n) = none := by
    rw [hext]; simp [truthy]
  have hctruthy : truthy (ccfg2.extractKey c.text) = none := by
    rw [hckey]; simp [truthy]
  have hnotin : ∀ e ∈ buildExistingMap cfg s.tree, e.2 ≠ n := by
    intro e he hen
    have h := (mem_buildExistingMap cfg s.tree e he).2
    rw [hen, htruthy] at h
    simp at h
  have hcnotinmap : ∀ e ∈ (buildPropsAndSpecials ccfg2 existingChildren).1, e.2 ≠ c := by
    intro e he hec
    rcases hbp : buildPropsAndSpecials ccfg2 existingChildren with ⟨m, sp⟩
    rw [hbp] at he
    have h := mem_buildPropsAux_map ccfg2 existingChildren ([], []) e
      (by rw [show buildPropsAux ccfg2 existingChildren ([], []) = (m, sp) from hbp]; exact he)
    rcases h with h | h
    · simp at h
    · rw [hec, hctruthy] at h
      exact Option.noConfusion h.2
  have hcnotinsp : ∀ b ∈ (buildPropsAndSpecials ccfg2 existingChildren).2, b ≠ c := by
    intro b hb hbc
    rcases hbp : buildPropsAndSpecials ccfg2 existingChildren with ⟨m, sp⟩
    rw [hbp] at hb
    have h := mem_buildPropsAux_specials ccfg2 existingChildren ([], []) b
      (by rw [show buildPropsAux ccfg2 existingChildren ([], []) = (m, sp) from hbp]; exact hb)
    rcases h with h | h
    · simp at h
    · rw [hbc, hcns] at h
      exact Bool.noConfusion h.2.2
  refine ⟨?_, ?_, hcnotinmap, ?_⟩
  · intro id hid
    exact hnotin (id, n) (mapGet_mem id (buildExistingMap cfg s.tree) n hid) rfl
  · obtain ⟨s', stats, tail, heq, htr, hall⟩ :=
      reconcile_targets (ε := ε) r cfg ccfg items s
    refine ⟨s', stats, tail, heq, htr, ?_⟩
    intro op hop u hu hun
    subst hun
    have hmemallowed := hall op hop n.uid hu
    rcases List.mem_cons.mp hmemallowed with h | h
    · exact hne h
    · rcases List.mem_flatMap.mp h with ⟨e, he, hdeep⟩
      have hetree : e.2 ∈ s.tree := (mem_buildExistingMap cfg s.tree e he).1
      exact hnotin e he
        (deep_nodup_inj s.tree hnd e.2 hetree n hmem n.uid hdeep (uid_mem_deepUidsNode n))
  · obtain ⟨s', stats, tail, heq, htr, hall⟩ :=
      syncChildren_targets_fine (ε := ε) r pu ccfg2 existingChildren newChildren s2
    refine ⟨s', stats, tail, heq, htr, ?_⟩
    intro op hop u hu hun
    subst hun
    have hv : ∀ v ∈ existingChildren, v.uid = c.uid → v = c := by
      intro v hvc hvuid
      exact List.inj_on_of_nodup_map hcnd hvc hcmem hvuid
    have hmemallowed := hall op hop c.uid hu
    rcases List.mem_cons.mp hmemallowed with h | h
    · exact hcne h
    · rcases List.mem_append.mp h with h1 | h1
      · rcases List.mem_map.mp h1 with ⟨e, he, heq'⟩
        have hetree : e.2 ∈ existingChildren := by
          rcases hbp : buildPropsAndSpecials ccfg2 existingChildren with ⟨m, sp⟩
          rw [hbp] at he
          have h2 := mem_buildPropsAux_map ccfg2 existingChildren ([], []) e
            (by rw [show buildPropsAux ccfg2 existingChildren ([], []) = (m, sp) from hbp]
                exact he)
          rcases h2 with h2 | h2
          · simp at h2
          · exact h2.1
        exact hcnotinmap e he (hv e.2 hetree heq')
      · rcases List.mem_map.mp h1 with ⟨b, hb, heq'⟩
        have hbtree : b ∈ existingChildren := by
          rcases hbp : buildPropsAndSpecials ccfg2 existingChildren with ⟨m, sp⟩
          rw [hbp] at hb
          have h2 := mem_buildPropsAux_specials ccfg2 existingChildren ([], []) b
            (by rw [show buildPropsAux ccfg2 existingChildren ([], []) = (m, sp) from hbp]
                exact hb)
          rcases h2 with h2 | h2
          · simp at h2
          · exact h2.1
        exact hcnotinsp b hb (hv b hbtree heq')

/-- Counterexample for C10 as stated: an existing child whose extracted key
is the empty string but whose text `isSpecialBlock` recognises IS deleted
by the pass (the claim asserts such a node is never deleted). -/
theorem claim_C10_counterexample :
    ccfgE.extractKey (RoamNode.mk "empty-key special" "u5" none).text = some "" ∧
    (Op.delete (RoamNode.mk "empty-key special" "u5" none).uid) ∈
      (syncChildren (noFail Unit "root") ccfgE "p"
        [RoamNode.mk "empty-key special" "u5" none]
        [BlockPayload.mk "new special" none] (st0 [])).1.trace := by
  refine ⟨rfl, ?_⟩
  show Op.delete "u5" ∈ (syncChildren (noFail Unit "root") ccfgE "p"
    [RoamNode.mk "empty-key special" "u5" none]
    [BlockPayload.mk "new special" none] (st0 [])).1.trace
  have htr : (syncChildren (noFail Unit "root") ccfgE "p"
      [RoamNode.mk "empty-key special" "u5" none]
      [BlockPayload.mk "new special" none] (st0 [])).1.trace
      = [Op.delete "u5", Op.delay 7,
         Op.create "p" (BlockPayload.mk "new special" none), Op.delay 7] := rfl
  rw [htr]
  exact List.mem_cons_self _ _

/-- Witness for the amended C10 at concrete inputs: a top-level node with
empty-string extracted id and a keyless-by-truthiness child with
empty-string extracted key, neither of which is ever targeted. -/
theorem claim_C10_witness :
    cfgEmpty.extractIdFromBlock (RoamNode.mk "empty" "u8" none) = some "" ∧
    ccfgEmptyKey.extractKey (RoamNode.mk "empty-key plain" "u6" none).text = some "" ∧
    ((∀ id, mapGet (buildExistingMap cfgEmpty [nodeW, RoamNode.mk "empty" "u8" none]) id
        ≠ some (RoamNode.mk "empty" "u8" none)) ∧
    (∃ s' stats tail,
      reconcile (noFail Unit "root") cfgEmpty none "root" ["1"]
          (st0 [nodeW, RoamNode.mk "empty" "u8" none]) = (s', .ok stats) ∧
      s'.trace = (st0 [nodeW, RoamNode.mk "empty" "u8" none]).trace ++ tail ∧
      ∀ op ∈ tail, ∀ u, op.target? = some u → u ≠ (RoamNode.mk "empty" "u8" none).uid) ∧
    (∀ e ∈ (buildPropsAndSpecials ccfgEmptyKey
        [RoamNode.mk "empty-key plain" "u6" none]).1,
      e.2 ≠ RoamNode.mk "empty-key plain" "u6" none) ∧
    (∃ s' stats tail,
      syncChildren (noFail Unit "root") ccfgEmptyKey "p"
          [RoamNode.mk "empty-key plain" "u6" none] [] (st0 []) = (s', .ok stats) ∧
      s'.trace = (st0 []).trace ++ tail ∧
      ∀ op ∈ tail, ∀ u, op.target? = some u →
        u ≠ (RoamNode.mk "empty-key plain" "u6" none).uid)) := by
  refine ⟨rfl, rfl, ?_⟩
  exact claim_C10 (ε := Unit) "root" cfgEmpty none ["1"]
    (st0 [nodeW, RoamNode.mk "empty" "u8" none]) (RoamNode.mk "empty" "u8" none)
    ccfgEmptyKey "p" [RoamNode.mk "empty-key plain" "u6" none] [] (st0 [])
    (RoamNode.mk "empty-key plain" "u6" none)
    (List.mem_cons_of_mem _ (List.mem_singleton.mpr rfl)) rfl (by decide) (by decide)
    (List.mem_singleton.mpr rfl) rfl rfl (by decide) (by decide)

/-! ### C9: pacing suspensions around mutations -/

theorem updDelFB_nil (ms : Nat) : updDelFollowedByDelay ms [] := by
  intro i op h1 h2
  simp at h1

theorem updDelFB_nonUpdDel (ms : Nat) (op : Op) (t : List Op)
    (hop : op.isUpdDel = false) (ht : updDelFollowedByDelay ms t) :
    updDelFollowedByDelay ms (op :: t) := by
  intro i op' h1 h2
  cases i with
  | zero =>
    simp only [List.getElem?_cons_zero, Option.some.injEq] at h1
    subst h1
    rw [hop] at h2
    exact Bool.noConfusion h2
  | succ j =>
    simp only [List.getElem?_cons_succ] at h1 ⊢
    exact ht j op' h1 h2

theorem updDelFB_pair (ms : Nat) (op : Op) (t : List Op)
    (ht : updDelFollowedByDelay ms t) :
    updDelFollowedByDelay ms (op :: Op.delay ms :: t) := by
  intro i op' h1 h2
  cases i with
  | zero => simp
  | succ j =>
    cases j with
    | zero =>
      simp only [List.getElem?_cons_succ, List.getElem?_cons_zero, Option.some.injEq] at h1
      subst h1
      exact Bool.noConfusion h2
    | succ j2 =>
      simp only [List.getElem?_cons_succ] at h1 ⊢
      exact ht j2 op' h1 h2

theorem mutFB_nil (ms : Nat) : mutFollowedByDelay ms [] := by
  intro i op h1 h2
  simp at h1

theorem mutFB_nonMut (ms : Nat) (op : Op) (t : List Op)
    (hop : op.isMut = false) (ht : mutFollowedByDelay ms t) :
    mutFollowedByDelay ms (op :: t) := by
  intro i op' h1 h2
  cases i with
  | zero =>
    simp only [List.getElem?_cons_zero, Option.some.injEq] at h1
    subst h1
    rw [hop] at h2
    exact Bool.noConfusion h2
  | succ j =>
    simp only [List.getElem?_cons_succ] at h1 ⊢
    exact ht j op' h1 h2

theorem mutFB_pair (ms : Nat) (op : Op) (t : List Op)
    (ht : mutFollowedByDelay ms t) :
    mutFollowedByDelay ms (op :: Op.delay ms :: t) := by
  intro i op' h1 h2
  cases i with
  | zero => simp
  | succ j =>
    cases j with
    | zero =>
      simp only [List.getElem?_cons_succ, List.getElem?_cons_zero, Option.some.injEq] at h1
      subst h1
      exact Bool.noConfusion h2
    | succ j2 =>
      simp only [List.getElem?_cons_succ] at h1 ⊢
      exact ht j2 op' h1 h2

theorem mutFB_specialDeleteOps (ms : Nat) (t : List Op) (ht : mutFollowedByDelay ms t) :
    ∀ (sp : List RoamNode), mutFollowedByDelay ms (specialDeleteOps ms sp ++ t) := by
  intro sp
  induction sp with
  | nil => simpa [specialDeleteOps] using ht
  | cons b bs ih =>
    have : specialDeleteOps ms (b :: bs) ++ t
        = Op.delete b.uid :: Op.delay ms :: (specialDeleteOps ms bs ++ t) := by
      simp [specialDeleteOps]
    rw [this]
    exact mutFB_pair ms _ _ ih

theorem precededBy_nil (ms : Nat) : deletePrecededByDelay ms [] := by
  intro i op h1 h2
  simp at h1

theorem precededBy_pair (ms : Nat) (u : String) (t : List Op)
    (ht : deletePrecededByDelay ms t) :
    deletePrecededByDelay ms (Op.delay ms :: Op.delete u :: t) := by
  intro i op h1 h2
  cases i with
  | zero =>
    simp only [List.getElem?_cons_zero, Option.some.injEq] at h1
    subst h1
    exact Bool.noConfusion h2
  | succ j =>
    cases j with
    | zero => exact ⟨0, rfl, rfl⟩
    | succ j2 =>
      simp only [List.getElem?_cons_succ] at h1
      obtain ⟨j3, hj3, hdel⟩ := ht j2 op h1 h2
      refine ⟨j3 + 2, by omega, ?_⟩
      simpa using hdel

theorem childOrphanOps_precededBy (ms : Nat) :
    ∀ (l : List (String × RoamNode)), deletePrecededByDelay ms (childOrphanOps ms l) := by
  intro l
  induction l with
  | nil => simpa [childOrphanOps] using precededBy_nil ms
  | cons e rest ih =>
    have : childOrphanOps ms (e :: rest)
        = Op.delay ms :: Op.delete e.2.uid :: childOrphanOps ms rest := by
      simp [childOrphanOps]
    rw [this]
    exact precededBy_pair ms _ _ ih

theorem orphanOps_followedBy (ms : Nat) :
    ∀ (l : List (String × RoamNode)), updDelFollowedByDelay ms (orphanOps ms l) := by
  intro l
  induction l with
  | nil => simpa [orphanOps] using updDelFB_nil ms
  | cons e rest ih =>
    rw [orphanOps_cons]
    exact updDelFB_pair ms _ _ ih

theorem lt_of_getElem?_eq_some {α : Type} {l : List α} {i : Nat} {a : α}
    (h : l[i]? = some a) : i < l.length := by
  by_contra hlt
  rw [List.getElem?_eq_none (by omega)] at h
  exact Option.noConfusion h

theorem updDelFB_append (ms : Nat) (t1 t2 : List Op)
    (h1 : updDelFollowedByDelay ms t1) (h2 : updDelFollowedByDelay ms t2) :
    updDelFollowedByDelay ms (t1 ++ t2) := by
  intro i op hi hop
  by_cases hlt : i < t1.length
  · rw [List.getElem?_append_left hlt] at hi
    have hnext := h1 i op hi hop
    have hlt2 : i + 1 < t1.length := lt_of_getElem?_eq_some hnext
    rw [List.getElem?_append_left hlt2]
    exact hnext
  · have hge : t1.length ≤ i := by omega
    rw [List.getElem?_append_right hge] at hi
    have hnext := h2 (i - t1.length) op hi hop
    rw [List.getElem?_append_right (by omega)]
    have : i + 1 - t1.length = i - t1.length + 1 := by omega
    rw [this]
    exact hnext

theorem syncLoop_followedBy {ε : Type} (r pu : String) (cfg : ChildReconcilerConfig) :
    ∀ (cs : List BlockPayload) (m : List (String × RoamNode)) (sp : List RoamNode)
      (stats : ChildSyncStats) (s : St),
      ∃ s' m' stats' tail,
        syncLoop (noFail ε r) cfg pu cs m sp stats s = (s', .ok (m', stats')) ∧
        s'.trace = s.trace ++ tail ∧
        mutFollowedByDelay cfg.mdelay tail := by
  intro cs
  induction cs with
  | nil =>
    intro m sp stats s
    exact ⟨s, m, stats, [], by simp [syncLoop], by simp, mutFB_nil _⟩
  | cons c rest ih =>
    intro m sp stats s
    rcases hk : truthy (cfg.extractKey c.text) with _ | k
    · by_cases hs : cfg.special c.text = true
      · obtain ⟨s1, heq1, htr1⟩ := deleteSpecials_noFail (ε := ε) r cfg.mdelay sp stats s
        obtain ⟨s', m', stats', tail, heq, htr, hfb⟩ := ih m []
          { skipped := stats.skipped, updated := stats.updated,
            created := stats.created + 1, deleted := stats.deleted + sp.length }
          (doDelay cfg.mdelay
            { tree := (applyOp r (.create pu c) s1.tree s1.nextUid).1,
              nextUid := (applyOp r (.create pu c) s1.tree s1.nextUid).2,
              trace := s1.trace ++ [.create pu c], muts := s1.muts + 1 })
        refine ⟨s', m', stats',
          specialDeleteOps cfg.mdelay sp ++ Op.create pu c :: Op.delay cfg.mdelay :: tail,
          ?_, ?_, ?_⟩
        · simp only [syncLoop, hk, if_pos hs, heq1, doMutation_noFail]
          exact heq
        · rw [htr]
          simp [doDelay, htr1]
        · exact mutFB_specialDeleteOps cfg.mdelay _ (mutFB_pair cfg.mdelay _ _ hfb) sp
      · obtain ⟨s', m', stats', tail, heq, htr, hfb⟩ := ih m sp stats s
        refine ⟨s', m', stats', tail, ?_, htr, hfb⟩
        simp only [syncLoop, hk, if_neg hs]
        exact heq
    · rcases hm : mapGet m k with _ | ex
      · obtain ⟨s', m', stats', tail, heq, htr, hfb⟩ := ih m sp
          { stats with created := stats.created + 1 }
          (doDelay cfg.mdelay
            { tree := (applyOp r (.create pu c) s.tree s.nextUid).1,
              nextUid := (applyOp r (.create pu c) s.tree s.nextUid).2,
              trace := s.trace ++ [.create pu c], muts := s.muts + 1 })
        refine ⟨s', m', stats', Op.create pu c :: Op.delay cfg.mdelay :: tail, ?_, ?_, ?_⟩
        · simp only [syncLoop, hk, hm, doMutation_noFail]
          exact heq
        · rw [htr]
          simp [doDelay]
        · exact mutFB_pair cfg.mdelay _ _ hfb
      · by_cases ht : ex.text = c.text
        · obtain ⟨s', m', stats', tail, heq, htr, hfb⟩ := ih (mapDelete m k) sp
            { stats with skipped := stats.skipped + 1 } s
          refine ⟨s', m', stats', tail, ?_, htr, hfb⟩
          simp only [syncLoop, hk, hm, if_pos ht]
          exact heq
        · obtain ⟨s', m', stats', tail, heq, htr, hfb⟩ := ih (mapDelete m k) sp
            { stats with updated := stats.updated + 1 }
            (doDelay cfg.mdelay
              { tree := (applyOp r (.update ex.uid c.text) s.tree s.nextUid).1,
                nextUid := (applyOp r (.update ex.uid c.text) s.tree s.nextUid).2,
                trace := s.trace ++ [.update ex.uid c.text], muts := s.muts + 1 })
          refine ⟨s', m', stats', Op.update ex.uid c.text :: Op.delay cfg.mdelay :: tail,
            ?_, ?_, ?_⟩
          · simp only [syncLoop, hk, hm, if_neg ht, doMutation_noFail]
            exact heq
          · rw [htr]
            simp [doDelay]
          · exact mutFB_pair cfg.mdelay _ _ hfb

theorem processItems_followedBy {ε T : Type} (r : String) (cfg : ReconcilerConfig T)
    (pu : String) (existingMap : List (String × RoamNode)) :
    ∀ (items : List T) (seen : List String) (stats : SyncStats) (s : St),
      ∃ s' res tail,
        processItems (noFail ε r) cfg none pu existingMap items seen stats s = (s', .ok res) ∧
        s'.trace = s.trace ++ tail ∧
        updDelFollowedByDelay cfg.mdelay tail := by
  intro items
  induction items with
  | nil =>
    intro seen stats s
    exact ⟨s, (seen, stats), [], by simp [processItems], by simp, updDelFB_nil _⟩
  | cons item rest ih =>
    intro seen stats s
    rcases hget : mapGet existingMap (cfg.extractId item) with _ | node
    · obtain ⟨s', res, tail, heq, htr, hfb⟩ := ih (seen.insert (cfg.extractId item))
        { stats with created := stats.created + 1 }
        { tree := (applyOp r (.create pu (cfg.buildBlock item)) s.tree s.nextUid).1,
          nextUid := (applyOp r (.create pu (cfg.buildBlock item)) s.tree s.nextUid).2,
          trace := s.trace ++ [.create pu (cfg.buildBlock item)], muts := s.muts + 1 }
      refine ⟨s', res, Op.create pu (cfg.buildBlock item) :: tail, ?_, ?_, ?_⟩
      · simp only [processItems, hget, createNewBlock, doMutation_noFail]
        exact heq
      · rw [htr]
        simp
      · exact updDelFB_nonUpdDel cfg.mdelay _ _ rfl hfb
    · by_cases hu : isUnchanged node (cfg.buildBlock item) = true
      · obtain ⟨s', res, tail, heq, htr, hfb⟩ := ih (seen.insert (cfg.extractId item))
          { stats with skipped := stats.skipped + 1 } s
        refine ⟨s', res, tail, ?_, htr, hfb⟩
        simp only [processItems, hget, if_pos hu]
        exact heq
      · by_cases htxt : node.text = (cfg.buildBlock item).text
        · have hcond : ¬(node.text ≠ (cfg.buildBlock item).text) := fun hh => hh htxt
          obtain ⟨s', res, tail, heq, htr, hfb⟩ := ih (seen.insert (cfg.extractId item))
            { stats with updated := stats.updated + 1 } s
          refine ⟨s', res, tail, ?_, htr, hfb⟩
          simp only [processItems, hget, if_neg hu, updateExistingBlock, if_neg hcond]
          exact heq
        · obtain ⟨s', res, tail, heq, htr, hfb⟩ := ih (seen.insert (cfg.extractId item))
            { stats with updated := stats.updated + 1 }
            (doDelay cfg.mdelay
              { tree := (applyOp r (.update node.uid (cfg.buildBlock item).text)
                  s.tree s.nextUid).1,
                nextUid := (applyOp r (.update node.uid (cfg.buildBlock item).text)
                  s.tree s.nextUid).2,
                trace := s.trace ++ [.update node.uid (cfg.buildBlock item).text],
                muts := s.muts + 1 })
          refine ⟨s', res,
            Op.update node.uid (cfg.buildBlock item).text :: Op.delay cfg.mdelay :: tail,
            ?_, ?_, ?_⟩
          · simp only [processItems, hget, if_neg hu, updateExistingBlock, if_pos htxt,
              doMutation_noFail]
            exact heq
          · rw [htr]
            simp [doDelay]
          · exact updDelFB_pair cfg.mdelay _ _ hfb

/-- C9 (amended): the default mutation delay is 100ms, and the engine
suspends for `mutationDelayMs` around mutations as follows — in the
top-level reconciler every update and delete is immediately followed by the
suspension (top-level block creations are not; see the counterexample); in
the property reconciler's main loop every mutation is immediately followed
by the suspension; in the property reconciler's orphan-deletion phase the
suspension immediately precedes each delete. -/
theorem claim_C9 :
    DEFAULT_MUTATION_DELAY_MS = 100 ∧
    (∀ (ε T : Type) (r : String) (cfg : ReconcilerConfig T) (items : List T) (s : St),
      ∃ s' stats tail,
        reconcile (noFail ε r) cfg none r items s = (s', .ok stats) ∧
        s'.trace = s.trace ++ tail ∧
        updDelFollowedByDelay cfg.mdelay tail) ∧
    (∀ (ε : Type) (r pu : String) (ccfg : ChildReconcilerConfig) (cs : List BlockPayload)
        (m : List (String × RoamNode)) (sp : List RoamNode) (stats : ChildSyncStats) (s : St),
      ∃ s' m' stats' tail,
        syncLoop (noFail ε r) ccfg pu cs m sp stats s = (s', .ok (m', stats')) ∧
        s'.trace = s.trace ++ tail ∧
        mutFollowedByDelay ccfg.mdelay tail) ∧
    (∀ (ε : Type) (r : String) (md : Nat) (l : List (String × RoamNode))
        (stats : ChildSyncStats) (s : St),
      ∃ s', deleteOrphans (noFail ε r) md l stats s
          = (s', .ok { stats with deleted := stats.deleted + l.length }) ∧
        s'.trace = s.trace ++ childOrphanOps md l ∧
        deletePrecededByDelay md (childOrphanOps md l)) := by
  refine ⟨rfl, ?_, ?_, ?_⟩
  · intro ε T r cfg items s
    obtain ⟨s1, res, tail1, heq1, htr1, hfb1⟩ :=
      processItems_followedBy (ε := ε) r cfg r (buildExistingMap cfg s.tree) items []
        { total := items.length, skipped := 0, created := 0, updated := 0, deleted := 0 } s
    rcases res with ⟨seenIds, stats1⟩
    obtain ⟨h2ok, h2tr⟩ :=
      removeObsolete_noFail (ε := ε) r cfg seenIds (buildExistingMap cfg s.tree) 0 s1
    rcases hro : removeObsolete (noFail ε r) cfg (buildExistingMap cfg s.tree) seenIds 0 s1
      with ⟨s2, res2⟩
    rw [hro] at h2ok h2tr
    simp only at h2ok h2tr
    refine ⟨s2, { stats1 with
        deleted := (obsoleteEntries cfg (buildExistingMap cfg s.tree) seenIds).length },
      tail1 ++ orphanOps cfg.mdelay (obsoleteEntries cfg (buildExistingMap cfg s.tree) seenIds),
      ?_, ?_, ?_⟩
    · simp only [reconcile, heq1, hro]
      subst h2ok
      simp
    · rw [h2tr, htr1, List.append_assoc]
    · exact updDelFB_append cfg.mdelay _ _ hfb1 (orphanOps_followedBy cfg.mdelay _)
  · intro ε r pu ccfg cs m sp stats s
    exact syncLoop_followedBy (ε := ε) r pu ccfg cs m sp stats s
  · intro ε r md l stats s
    obtain ⟨s', heq, htr⟩ := deleteOrphans_noFail (ε := ε) r md l stats s
    exact ⟨s', heq, htr, childOrphanOps_precededBy md l⟩

/-- Counterexample for C9 as stated: in a pass that creates two top-level
blocks, no pacing suspension is recorded at all — the creation of a new
top-level block is not followed by the mutation delay, so it is not the
case that the engine suspends after every mutation. -/
theorem claim_C9_counterexample :
    (reconcile (noFail Unit "root") cfgW none "root" ["1", "2"] (st0 [])).1.trace
      = [Op.create "root" (BlockPayload.mk "task 1" none),
         Op.create "root" (BlockPayload.mk "task 2" none)] ∧
    ¬ mutFollowedByDelay cfgW.mdelay
        (reconcile (noFail Unit "root") cfgW none "root" ["1", "2"] (st0 [])).1.trace := by
  refine ⟨rfl, ?_⟩
  intro h
  have h0 := h 0 (Op.create "root" (BlockPayload.mk "task 1" none)) rfl rfl
  have h1 : (reconcile (noFail Unit "root") cfgW none "root" ["1", "2"] (st0 [])).1.trace[1]?
      = some (Op.create "root" (BlockPayload.mk "task 2" none)) := rfl
  have h2 := h1.symm.trans h0
  exact Op.noConfusion (Option.some.inj h2)

/-! ### C8: failure propagation -/

theorem applyTrace_append (r : String) :
    ∀ (t1 t2 : List Op) (tree : List RoamNode) (k : Nat),
      applyTrace r (t1 ++ t2) tree k
        = applyTrace r t2 (applyTrace r t1 tree k).1 (applyTrace r t1 tree k).2 := by
  intro t1
  induction t1 with
  | nil => intro t2 tree k; simp [applyTrace]
  | cons op rest ih =>
    intro t2 tree k
    rcases h : applyOp r op tree k with ⟨tree', k'⟩
    simp only [List.cons_append, applyTrace, h]
    exact ih t2 tree' k'

theorem mutCount_append (t1 t2 : List Op) :
    mutCount (t1 ++ t2) = mutCount t1 + mutCount t2 := by
  simp [mutCount, List.filter_append]

theorem StepOk_pure {ε α : Type} (env : Env ε) (s : St) (a : α) :
    StepOk env s s (Except.ok a) := by
  refine ⟨⟨[], by simp, by simp [applyTrace], by simp [applyTrace]⟩, le_refl _,
    fun h => h, fun j h1 h2 => absurd h2 (by omega), fun e he => Except.noConfusion he⟩

theorem StepOk_comp {ε α β : Type} (env : Env ε) (s s1 s2 : St) (a : α)
    (res : Except ε β) (h1 : StepOk env s s1 (Except.ok a)) (h2 : StepOk env s1 s2 res) :
    StepOk env s s2 res := by
  obtain ⟨⟨t1, htr1, htree1, hk1⟩, hm1, hc1, hf1, _⟩ := h1
  obtain ⟨⟨t2, htr2, htree2, hk2⟩, hm2, hc2, hf2, he2⟩ := h2
  refine ⟨⟨t1 ++ t2, ?_, ?_, ?_⟩, le_trans hm1 hm2, fun h => hc2 (hc1 h), ?_, he2⟩
  · rw [htr2, htr1, List.append_assoc]
  · rw [applyTrace_append, ← htree1, ← hk1, ← htree2]
  · rw [applyTrace_append, ← htree1, ← hk1, ← hk2]
  · intro j hj1 hj2
    by_cases h : j < s1.muts
    · exact hf1 j hj1 h
    · exact hf2 j (by omega) hj2

theorem doMutation_StepOk {ε : Type} (env : Env ε) (op : Op) (s : St)
    (hop : op.isMut = true) :
    StepOk env s (doMutation env op s).1 (doMutation env op s).2 := by
  rcases hf : env.failAt s.muts with _ | e
  · rcases hap : applyOp env.rootUid op s.tree s.nextUid with ⟨tree', k'⟩
    simp only [doMutation, hf, hap]
    refine ⟨⟨[op], by simp, ?_, ?_⟩, by simp, ?_, ?_, fun e he => Except.noConfusion he⟩
    · simp [applyTrace, hap]
    · simp [applyTrace, hap]
    · intro h
      simp only [mutCount_append, h]
      simp [mutCount, hop]
    · intro j h1 h2
      simp only at h2
      have : j = s.muts := by omega
      rw [this]
      exact hf
  · simp only [doMutation, hf]
    refine ⟨⟨[], by simp, by simp [applyTrace], by simp [applyTrace]⟩, le_refl _,
      fun h => h, fun j h1 h2 => absurd h2 (by omega), fun e' he => ?_⟩
    have : e = e' := Except.error.inj he
    rw [← this]
    exact hf

theorem doDelay_StepOk {ε : Type} (env : Env ε) (ms : Nat) (s : St) :
    StepOk env s (doDelay ms s) (Except.ok ()) := by
  refine ⟨⟨[Op.delay ms], by simp [doDelay], ?_, ?_⟩, le_refl _, ?_,
    fun j h1 h2 => absurd h2 (by simp [doDelay] at h2 ⊢; omega),
    fun e he => Except.noConfusion he⟩
  · simp [applyTrace, applyOp, doDelay]
  · simp [applyTrace, applyOp, doDelay]
  · intro h
    simp only [doDelay, mutCount_append]
    rw [h]
    simp [mutCount, Op.isMut]

theorem StepOk_errCast {ε α β : Type} {env : Env ε} {s s' : St} {e : ε}
    (h : StepOk env s s' (Except.error e : Except ε α)) :
    StepOk env s s' (Except.error e : Except ε β) := by
  obtain ⟨ht, hm, hc, hf, he⟩ := h
  exact ⟨ht, hm, hc, hf, fun e' he' => by cases he'; exact he e rfl⟩

theorem deleteSpecials_StepOk {ε : Type} (env : Env ε) (md : Nat) :
    ∀ (sp : List RoamNode) (stats : ChildSyncStats) (s : St),
      StepOk env s (deleteSpecials env md sp stats s).1 (deleteSpecials env md sp stats s).2 := by
  intro sp
  induction sp with
  | nil => intro stats s; simpa [deleteSpecials] using StepOk_pure env s stats
  | cons b bs ih =>
    intro stats s
    rcases hdm : doMutation env (.delete b.uid) s with ⟨s1, r1⟩
    have h1 : StepOk env s s1 r1 := by
      have h := doMutation_StepOk env (.delete b.uid) s rfl
      rw [hdm] at h
      exact h
    cases r1 with
    | error e =>
      simp only [deleteSpecials, hdm]
      exact StepOk_errCast h1
    | ok u =>
      simp only [deleteSpecials, hdm]
      exact StepOk_comp env s s1 _ u _ h1
        (StepOk_comp env s1 (doDelay md s1) _ () _ (doDelay_StepOk env md s1)
          (ih _ (doDelay md s1)))

theorem syncLoop_StepOk {ε : Type} (env : Env ε) (cfg : ChildReconcilerConfig) (pu : String) :
    ∀ (cs : List BlockPayload) (m : List (String × RoamNode)) (sp : List RoamNode)
      (stats : ChildSyncStats) (s : St),
      StepOk env s (syncLoop env cfg pu cs m sp stats s).1
        (syncLoop env cfg pu cs m sp stats s).2 := by
  intro cs
  induction cs with
  | nil => intro m sp stats s; simpa [syncLoop] using StepOk_pure env s (m, stats)
  | cons c rest ih =>
    intro m sp stats s
    rcases hk : truthy (cfg.extractKey c.text) with _ | k
    · by_cases hs : cfg.special c.text = true
      · rcases hds : deleteSpecials env cfg.mdelay sp stats s with ⟨s1, r1⟩
        have h1 : StepOk env s s1 r1 := by
          have h := deleteSpecials_StepOk env cfg.mdelay sp stats s
          rw [hds] at h
          exact h
        cases r1 with
        | error e =>
          simp only [syncLoop, hk, if_pos hs, hds]
          exact StepOk_errCast h1
        | ok stats1 =>
          rcases hdm : doMutation env (.create pu c) s1 with ⟨s2, r2⟩
          have h2 : StepOk env s1 s2 r2 := by
            have h := doMutation_StepOk env (.create pu c) s1 rfl
            rw [hdm] at h
            exact h
          cases r2 with
          | error e =>
            simp only [syncLoop, hk, if_pos hs, hds, hdm]
            exact StepOk_comp env s s1 _ stats1 _ h1 (StepOk_errCast h2)
          | ok u =>
            simp only [syncLoop, hk, if_pos hs, hds, hdm]
            refine StepOk_comp env s s1 _ stats1 _ h1 (StepOk_comp env s1 s2 _ u _ h2 ?_)
            exact StepOk_comp env s2 (doDelay cfg.mdelay s2) _ () _
              (doDelay_StepOk env cfg.mdelay s2) (ih _ _ _ (doDelay cfg.mdelay s2))
      · simp only [syncLoop, hk, if_neg hs]
        exact ih m sp stats s
    · rcases hm : mapGet m k with _ | ex
      · rcases hdm : doMutation env (.create pu c) s with ⟨s1, r1⟩
        have h1 : StepOk env s s1 r1 := by
          have h := doMutation_StepOk env (.create pu c) s rfl
          rw [hdm] at h
          exact h
        cases r1 with
        | error e =>
          simp only [syncLoop, hk, hm, hdm]
          exact StepOk_errCast h1
        | ok u =>
          simp only [syncLoop, hk, hm, hdm]
          exact StepOk_comp env s s1 _ u _ h1
            (StepOk_comp env s1 (doDelay cfg.mdelay s1) _ () _
              (doDelay_StepOk env cfg.mdelay s1) (ih _ _ _ (doDelay cfg.mdelay s1)))
      · by_cases ht : ex.text = c.text
        · simp only [syncLoop, hk, hm, if_pos ht]
          exact ih _ _ _ s
        · rcases hdm : doMutation env (.update ex.uid c.text) s with ⟨s1, r1⟩
          have h1 : StepOk env s s1 r1 := by
            have h := doMutation_StepOk env (.update ex.uid c.text) s rfl
            rw [hdm] at h
            exact h
          cases r1 with
          | error e =>
            simp only [syncLoop, hk, hm, if_neg ht, hdm]
            exact StepOk_errCast h1
          | ok u =>
            simp only [syncLoop, hk, hm, if_neg ht, hdm]
            exact StepOk_comp env s s1 _ u _ h1
              (StepOk_comp env s1 (doDelay cfg.mdelay s1) _ () _
                (doDelay_StepOk env cfg.mdelay s1) (ih _ _ _ (doDelay cfg.mdelay s1)))

theorem deleteOrphans_StepOk {ε : Type} (env : Env ε) (md : Nat) :
    ∀ (l : List (String × RoamNode)) (stats : ChildSyncStats) (s : St),
      StepOk env s (deleteOrphans env md l stats s).1 (deleteOrphans env md l stats s).2 := by
  intro l
  induction l with
  | nil => intro stats s; simpa [deleteOrphans] using StepOk_pure env s stats
  | cons e rest ih =>
    intro stats s
    rcases hdm : doMutation env (.delete e.2.uid) (doDelay md s) with ⟨s1, r1⟩
    have h1 : StepOk env s s1 r1 := by
      have h := doMutation_StepOk env (.delete e.2.uid) (doDelay md s) rfl
      rw [hdm] at h
      exact StepOk_comp env s (doDelay md s) _ () _ (doDelay_StepOk env md s) h
    cases r1 with
    | error er =>
      simp only [deleteOrphans, hdm]
      exact StepOk_errCast h1
    | ok u =>
      simp only [deleteOrphans, hdm]
      exact StepOk_comp env s s1 _ u _ h1 (ih _ s1)

theorem syncChildren_StepOk {ε : Type} (env : Env ε) (cfg : ChildReconcilerConfig)
    (pu : String) (existingChildren : List RoamNode) (newChildren : List BlockPayload)
    (s : St) :
    StepOk env s (syncChildren env cfg pu existingChildren newChildren s).1
      (syncChildren env cfg pu existingChildren newChildren s).2 := by
  rcases hbp : buildPropsAndSpecials cfg existingChildren with ⟨m, sp⟩
  rcases hsl : syncLoop env cfg pu newChildren m sp
      { skipped := 0, updated := 0, created := 0, deleted := 0 } s with ⟨s1, r1⟩
  have h1 : StepOk env s s1 r1 := by
    have h := syncLoop_StepOk env cfg pu newChildren m sp
      { skipped := 0, updated := 0, created := 0, deleted := 0 } s
    rw [hsl] at h
    exact h
  cases r1 with
  | error e =>
    simp only [syncChildren, hbp, hsl]
    exact StepOk_errCast h1
  | ok res =>
    rcases res with ⟨m', stats⟩
    simp only [syncChildren, hbp, hsl]
    exact StepOk_comp env s s1 _ (m', stats) _ h1 (deleteOrphans_StepOk env cfg.mdelay m' stats s1)

theorem updateExistingBlock_StepOk {ε T : Type} (env : Env ε) (cfg : ReconcilerConfig T)
    (ccfg : Option ChildReconcilerConfig) (existing : RoamNode) (newBlock : BlockPayload)
    (s : St) :
    StepOk env s (updateExistingBlock env cfg ccfg existing newBlock s).1
      (updateExistingBlock env cfg ccfg existing newBlock s).2 := by
  by_cases htxt : existing.text = newBlock.text
  · have hcond : ¬(existing.text ≠ newBlock.text) := fun hh => hh htxt
    rcases ccfg with _ | c
    · simp only [updateExistingBlock, if_neg hcond]
      exact StepOk_pure env s ()
    · rcases hmc : newBlock.children with _ | desired
      · simp only [updateExistingBlock, if_neg hcond, hmc]
        exact StepOk_pure env s ()
      · rcases hsc : syncChildren env c existing.uid (existing.children.getD []) desired s
          with ⟨s1, r1⟩
        have h1 : StepOk env s s1 r1 := by
          have h := syncChildren_StepOk env c existing.uid (existing.children.getD []) desired s
          rw [hsc] at h
          exact h
        cases r1 with
        | error e =>
          simp only [updateExistingBlock, if_neg hcond, hmc, hsc]
          exact StepOk_errCast h1
        | ok stats =>
          simp only [updateExistingBlock, if_neg hcond, hmc, hsc]
          exact StepOk_comp env s s1 _ stats _ h1 (StepOk_pure env s1 ())
  · rcases hdm : doMutation env (.update existing.uid newBlock.text) s with ⟨s1, r1⟩
    have h1 : StepOk env s s1 r1 := by
      have h := doMutation_StepOk env (.update existing.uid newBlock.text) s rfl
      rw [hdm] at h
      exact h
    cases r1 with
    | error e =>
      simp only [updateExistingBlock, if_pos htxt, hdm]
      exact StepOk_errCast h1
    | ok u =>
      have h1d : StepOk env s (doDelay cfg.mdelay s1) (Except.ok ()) :=
        StepOk_comp env s s1 _ u _ h1 (doDelay_StepOk env cfg.mdelay s1)
      rcases ccfg with _ | c
      · simp only [updateExistingBlock, if_pos htxt, hdm]
        exact h1d
      · rcases hmc : newBlock.children with _ | desired
        · simp only [updateExistingBlock, if_pos htxt, hdm, hmc]
          exact h1d
        · rcases hsc : syncChildren env c existing.uid (existing.children.getD []) desired
            (doDelay cfg.mdelay s1) with ⟨s2, r2⟩
          have h2 : StepOk env (doDelay cfg.mdelay s1) s2 r2 := by
            have h := syncChildren_StepOk env c existing.uid (existing.children.getD [])
              desired (doDelay cfg.mdelay s1)
            rw [hsc] at h
            exact h
          cases r2 with
          | error e =>
            simp only [updateExistingBlock, if_pos htxt, hdm, hmc, hsc]
            exact StepOk_comp env s (doDelay cfg.mdelay s1) _ () _ h1d (StepOk_errCast h2)
          | ok stats =>
            simp only [updateExistingBlock, if_pos htxt, hdm, hmc, hsc]
            exact StepOk_comp env s (doDelay cfg.mdelay s1) _ () _ h1d
              (StepOk_comp env (doDelay cfg.mdelay s1) s2 _ stats _ h2 (StepOk_pure env s2 ()))

theorem processItems_StepOk {ε T : Type} (env : Env ε) (cfg : ReconcilerConfig T)
    (ccfg : Option ChildReconcilerConfig) (pu : String)
    (existingMap : List (String × RoamNode)) :
    ∀ (items : List T) (seen : List String) (stats : SyncStats) (s : St),
      StepOk env s (processItems env cfg ccfg pu existingMap items seen stats s).1
        (processItems env cfg ccfg pu existingMap items seen stats s).2 := by
  intro items
  induction items with
  | nil => intro seen stats s; simpa [processItems] using StepOk_pure env s (seen, stats)
  | cons item rest ih =>
    intro seen stats s
    rcases hget : mapGet existingMap (cfg.extractId item) with _ | node
    · rcases hdm : createNewBlock env pu (cfg.buildBlock item) s with ⟨s1, r1⟩
      have h1 : StepOk env s s1 r1 := by
        have h := doMutation_StepOk env (.create pu (cfg.buildBlock item)) s rfl
        rw [show doMutation env (.create pu (cfg.buildBlock item)) s = (s1, r1) from hdm] at h
        exact h
      cases r1 with
      | error e =>
        simp only [processItems, hget, hdm]
        exact StepOk_errCast h1
      | ok u =>
        simp only [processItems, hget, hdm]
        exact StepOk_comp env s s1 _ u _ h1 (ih _ _ s1)
    · by_cases hu : isUnchanged node (cfg.buildBlock item) = true
      · simp only [processItems, hget, if_pos hu]
        exact ih _ _ s
      · rcases hub : updateExistingBlock env cfg ccfg node (cfg.buildBlock item) s
          with ⟨s1, r1⟩
        have h1 : StepOk env s s1 r1 := by
          have h := updateExistingBlock_StepOk env cfg ccfg node (cfg.buildBlock item) s
          rw [hub] at h
          exact h
        cases r1 with
        | error e =>
          simp only [processItems, hget, if_neg hu, hub]
          exact StepOk_errCast h1
        | ok u =>
          simp only [processItems, hget, if_neg hu, hub]
          exact StepOk_comp env s s1 _ u _ h1 (ih _ _ s1)

theorem removeObsolete_StepOk {ε T : Type} (env : Env ε) (cfg : ReconcilerConfig T) :
    ∀ (m : List (String × RoamNode)) (seenIds : List String) (cnt : Nat) (s : St),
      StepOk env s (removeObsolete env cfg m seenIds cnt s).1
        (removeObsolete env cfg m seenIds cnt s).2 := by
  intro m
  induction m with
  | nil => intro seen cnt s; simpa [removeObsolete] using StepOk_pure env s cnt
  | cons e rest ih =>
    intro seen cnt s
    rcases e with ⟨id, node⟩
    by_cases hseen : id ∈ seen
    · simp only [removeObsolete, if_pos hseen]
      exact ih seen cnt s
    · by_cases hpres : cfg.preserves node = true
      · simp only [removeObsolete, if_neg hseen, if_pos hpres]
        exact ih seen cnt s
      · rcases hdm : doMutation env (.delete node.uid) s with ⟨s1, r1⟩
        have h1 : StepOk env s s1 r1 := by
          have h := doMutation_StepOk env (.delete node.uid) s rfl
          rw [hdm] at h
          exact h
        cases r1 with
        | error er =>
          simp only [removeObsolete, if_neg hseen, if_neg hpres, hdm]
          exact StepOk_errCast h1
        | ok u =>
          simp only [removeObsolete, if_neg hseen, if_neg hpres, hdm]
          exact StepOk_comp env s s1 _ u _ h1
            (StepOk_comp env s1 (doDelay cfg.mdelay s1) _ () _
              (doDelay_StepOk env cfg.mdelay s1) (ih seen (cnt + 1) (doDelay cfg.mdelay s1)))

theorem reconcile_StepOk {ε T : Type} (env : Env ε) (cfg : ReconcilerConfig T)
    (ccfg : Option ChildReconcilerConfig) (pu : String) (items : List T) (s : St) :
    StepOk env s (reconcile env cfg ccfg pu items s).1 (reconcile env cfg ccfg pu items s).2 := by
  rcases hpi : processItems env cfg ccfg pu (buildExistingMap cfg s.tree) items []
      { total := items.length, skipped := 0, created := 0, updated := 0, deleted := 0 } s
    with ⟨s1, r1⟩
  have h1 : StepOk env s s1 r1 := by
    have h := processItems_StepOk env cfg ccfg pu (buildExistingMap cfg s.tree) items []
      { total := items.length, skipped := 0, created := 0, updated := 0, deleted := 0 } s
    rw [hpi] at h
    exact h
  cases r1 with
  | error e =>
    simp only [reconcile, hpi]
    exact StepOk_errCast h1
  | ok res =>
    rcases res with ⟨seenIds, stats1⟩
    rcases hro : removeObsolete env cfg (buildExistingMap cfg s.tree) seenIds 0 s1
      with ⟨s2, r2⟩
    have h2 : StepOk env s1 s2 r2 := by
      have h := removeObsolete_StepOk env cfg (buildExistingMap cfg s.tree) seenIds 0 s1
      rw [hro] at h
      exact h
    cases r2 with
    | error e =>
      simp only [reconcile, hpi, hro]
      exact StepOk_comp env s s1 _ (seenIds, stats1) _ h1 (StepOk_errCast h2)
    | ok cnt =>
      simp only [reconcile, hpi, hro]
      exact StepOk_comp env s s1 _ (seenIds, stats1) _ h1
        (StepOk_comp env s1 s2 _ cnt _ h2 (StepOk_pure env s2 _))

/-- C8: if a backend create/update/delete call rejects during `reconcile` or
`syncChildren`, the same error propagates verbatim to the caller — it is
exactly the oracle's rejection of the first failing mutation, unwrapped —
no further backend mutation is attempted past the failure (every mutation
the run attempted before it succeeded, and the mutation counter stops at
the failing index with the trace recording exactly the completed
mutations), and the mutations and stat-relevant operations completed
before the failure are not rolled back: the final tree is precisely the
replay of the operations appended to the trace. -/
theorem claim_C8 {ε T : Type} (envA envB : Env ε) (cfg : ReconcilerConfig T)
    (ccfg : Option ChildReconcilerConfig) (ccfg2 : ChildReconcilerConfig)
    (pu pu2 : String) (items : List T) (ec : List RoamNode) (nc : List BlockPayload)
    (s t s' t' : St) (e e' : ε)
    (hrun : reconcile envA cfg ccfg pu items s = (s', Except.error e))
    (hmc : mutCount s.trace = s.muts)
    (hrun2 : syncChildren envB ccfg2 pu2 ec nc t = (t', Except.error e'))
    (hmc2 : mutCount t.trace = t.muts) :
    (envA.failAt s'.muts = some e ∧
     (∀ j, s.muts ≤ j → j < s'.muts → envA.failAt j = none) ∧
     mutCount s'.trace = s'.muts ∧
     ∃ tail, s'.trace = s.trace ++ tail ∧
       s'.tree = (applyTrace envA.rootUid tail s.tree s.nextUid).1) ∧
    (envB.failAt t'.muts = some e' ∧
     (∀ j, t.muts ≤ j → j < t'.muts → envB.failAt j = none) ∧
     mutCount t'.trace = t'.muts ∧
     ∃ tail, t'.trace = t.trace ++ tail ∧
       t'.tree = (applyTrace envB.rootUid tail t.tree t.nextUid).1) := by
  constructor
  · have h := reconcile_StepOk envA cfg ccfg pu items s
    rw [hrun] at h
    obtain ⟨⟨tail, htr, htree, _⟩, _, hc, hf, he⟩ := h
    exact ⟨he e rfl, hf, hc hmc, tail, htr, htree⟩
  · have h := syncChildren_StepOk envB ccfg2 pu2 ec nc t
    rw [hrun2] at h
    obtain ⟨⟨tail, htr, htree, _⟩, _, hc, hf, he⟩ := h
    exact ⟨he e' rfl, hf, hc hmc2, tail, htr, htree⟩

/-- Witness for C8: under the oracle that rejects the second mutation with
`boom`, both a two-item `reconcile` run and a two-property `syncChildren`
run fail, and the returned error is verbatim the oracle's rejection at the
final mutation index. -/
theorem claim_C8_witness :
    reconcile envF cfgW none "root" ["1", "2"] (st0 []) =
      ((reconcile envF cfgW none "root" ["1", "2"] (st0 [])).1, Except.error "boom") ∧
    mutCount (st0 ([] : List RoamNode)).trace = (st0 ([] : List RoamNode)).muts ∧
    syncChildren envF ccfgB "p" []
      [BlockPayload.mk "priority:: low" none, BlockPayload.mk "status:: active" none]
      (st0 []) =
      ((syncChildren envF ccfgB "p" []
        [BlockPayload.mk "priority:: low" none, BlockPayload.mk "status:: active" none]
        (st0 [])).1, Except.error "boom") ∧
    envF.failAt (reconcile envF cfgW none "root" ["1", "2"] (st0 [])).1.muts = some "boom" ∧
    envF.failAt (syncChildren envF ccfgB "p" []
      [BlockPayload.mk "priority:: low" none, BlockPayload.mk "status:: active" none]
      (st0 [])).1.muts = some "boom" :=
  ⟨rfl, rfl, rfl,
    (claim_C8 envF envF cfgW none ccfgB "root" "p" ["1", "2"] []
      [BlockPayload.mk "priority:: low" none, BlockPayload.mk "status:: active" none]
      (st0 []) (st0 []) _ _ "boom" "boom" rfl rfl rfl rfl).1.1,
    (claim_C8 envF envF cfgW none ccfgB "root" "p" ["1", "2"] []
      [BlockPayload.mk "priority:: low" none, BlockPayload.mk "status:: active" none]
      (st0 []) (st0 []) _ _ "boom" "boom" rfl rfl rfl rfl).2.1⟩

theorem processItems_all_skip {ε T : Type} (env : Env ε) (cfg : ReconcilerConfig T)
    (ccfg : Option ChildReconcilerConfig) (pu : String) (m : List (String × RoamNode)) :
    ∀ (items : List T) (seen : List String) (stats : SyncStats) (s : St),
      (∀ item ∈ items, ∃ node, mapGet m (cfg.extractId item) = some node ∧
        isUnchanged node (cfg.buildBlock item) = true) →
      ∃ seen' : List String,
        processItems env cfg ccfg pu m items seen stats s =
          (s, Except.ok (seen',
            { total := stats.total, skipped := stats.skipped + items.length,
              created := stats.created, updated := stats.updated,
              deleted := stats.deleted })) ∧
        ∀ x, x ∈ seen' ↔ x ∈ seen ∨ x ∈ items.map cfg.extractId := by
  intro items
  induction items with
  | nil =>
    intro seen stats s _
    rcases stats with ⟨tot, sk, cr, up, dl⟩
    exact ⟨seen, by simp [processItems], fun x => by simp⟩
  | cons item rest ih =>
    intro seen stats s hall
    obtain ⟨node, hget, hunch⟩ := hall item (List.mem_cons_self item rest)
    have hrest : ∀ it ∈ rest, ∃ nd, mapGet m (cfg.extractId it) = some nd ∧
        isUnchanged nd (cfg.buildBlock it) = true :=
      fun it hi => hall it (List.mem_cons_of_mem _ hi)
    obtain ⟨seen', heq, hmem⟩ := ih (seen.insert (cfg.extractId item))
      { stats with skipped := stats.skipped + 1 } s hrest
    refine ⟨seen', ?_, ?_⟩
    · have hstep : processItems env cfg ccfg pu m (item :: rest) seen stats s =
          processItems env cfg ccfg pu m rest (seen.insert (cfg.extractId item))
            { stats with skipped := stats.skipped + 1 } s := by
        simp [processItems, hget, hunch]
      rw [hstep, heq]
      have harith : stats.skipped + 1 + rest.length = stats.skipped + (rest.length + 1) := by
        omega
      simp [harith]
    · intro x
      rw [hmem x]
      simp only [List.mem_insert_iff, List.map_cons, List.mem_cons]
      tauto

theorem removeObsolete_all_kept {ε T : Type} (env : Env ε) (cfg : ReconcilerConfig T) :
    ∀ (m : List (String × RoamNode)) (seen : List String) (cnt : Nat) (s : St),
      (∀ e ∈ m, e.1 ∈ seen ∨ cfg.preserves e.2 = true) →
      removeObsolete env cfg m seen cnt s = (s, Except.ok cnt) := by
  intro m
  induction m with
  | nil => intro seen cnt s _; simp [removeObsolete]
  | cons e rest ih =>
    intro seen cnt s hall
    rcases e with ⟨id, node⟩
    have htail : ∀ e ∈ rest, e.1 ∈ seen ∨ cfg.preserves e.2 = true :=
      fun e he => hall e (List.mem_cons_of_mem _ he)
    rcases hall ⟨id, node⟩ (List.mem_cons_self _ _) with h | h
    · simp only [removeObsolete, if_pos h]
      exact ih seen cnt s htail
    · by_cases hs : id ∈ seen
      · simp only [removeObsolete, if_pos hs]
        exact ih seen cnt s htail
      · simp only [removeObsolete, if_neg hs, h, if_true]
        exact ih seen cnt s htail

/-- C1 (amended): running `reconcile` a second time immediately after a
completed first run yields `skipped == total` and
`created == updated == deleted == 0`, and issues zero backend calls (the
state — tree, trace and mutation counter — is returned unchanged),
PROVIDED the tree left by the first run satisfies: every item's extracted
id maps to a structurally unchanged node, and every mapped id is either an
item id or accepted by `preserveWhen`.  Without the structural-convergence
proviso the claim fails: see the counterexample, where an item whose
payload carries children that the engine never materialises is re-counted
as `updated` on every run. -/
theorem claim_C1 {ε T : Type} (env : Env ε) (cfg : ReconcilerConfig T)
    (ccfg : Option ChildReconcilerConfig) (pu : String) (items : List T)
    (s0 s1 : St) (stats1 : SyncStats)
    (hfirst : reconcile env cfg ccfg pu items s0 = (s1, Except.ok stats1))
    (h1 : items.all (fun item =>
      match mapGet (buildExistingMap cfg s1.tree) (cfg.extractId item) with
      | some node => isUnchanged node (cfg.buildBlock item)
      | none => false) = true)
    (h2 : (buildExistingMap cfg s1.tree).all
      (fun e => decide (e.1 ∈ items.map cfg.extractId) || cfg.preserves e.2) = true) :
    reconcile env cfg ccfg pu items s1 =
      (s1, Except.ok (SyncStats.mk items.length items.length 0 0 0)) := by
  have h1' : ∀ item ∈ items, ∃ node,
      mapGet (buildExistingMap cfg s1.tree) (cfg.extractId item) = some node ∧
      isUnchanged node (cfg.buildBlock item) = true := by
    intro item hi
    have hx := List.all_eq_true.mp h1 item hi
    rcases hm : mapGet (buildExistingMap cfg s1.tree) (cfg.extractId item) with _ | node
    · rw [hm] at hx
      simp at hx
    · rw [hm] at hx
      exact ⟨node, rfl, hx⟩
  obtain ⟨seen', heq, hmem⟩ := processItems_all_skip env cfg ccfg pu
    (buildExistingMap cfg s1.tree) items []
    { total := items.length, skipped := 0, created := 0, updated := 0, deleted := 0 } s1 h1'
  have h2' : ∀ e ∈ buildExistingMap cfg s1.tree,
      e.1 ∈ seen' ∨ cfg.preserves e.2 = true := by
    intro e he
    have hx := List.all_eq_true.mp h2 e he
    rcases (Bool.or_eq_true _ _).mp hx with h | h
    · exact Or.inl ((hmem e.1).mpr (Or.inr (of_decide_eq_true h)))
    · exact Or.inr h
  have hro := removeObsolete_all_kept env cfg (buildExistingMap cfg s1.tree) seen' 0 s1 h2'
  simp [reconcile, heq, hro]

/-- Witness for C1: a two-item run over two already-matching nodes
completes with everything skipped, the hypotheses hold for the resulting
(unchanged) state, and the second run again returns everything skipped
with zero backend calls. -/
theorem claim_C1_witness :
    reconcile (noFail String "root") cfgW none "root" ["1", "2"] (st0 [nodeW, node2W]) =
      (st0 [nodeW, node2W],
        Except.ok { total := 2, skipped := 2, created := 0, updated := 0, deleted := 0 }) ∧
    (["1", "2"].all (fun item =>
      match mapGet (buildExistingMap cfgW (st0 [nodeW, node2W]).tree) (cfgW.extractId item) with
      | some node => isUnchanged node (cfgW.buildBlock item)
      | none => false) = true) ∧
    ((buildExistingMap cfgW (st0 [nodeW, node2W]).tree).all
      (fun e => decide (e.1 ∈ ["1", "2"].map cfgW.extractId) || cfgW.preserves e.2) = true) ∧
    reconcile (noFail String "root") cfgW none "root" ["1", "2"] (st0 [nodeW, node2W]) =
      (st0 [nodeW, node2W],
        Except.ok { total := 2, skipped := 2, created := 0, updated := 0, deleted := 0 }) :=
  ⟨rfl, rfl, rfl,
    claim_C1 (noFail String "root") cfgW none "root" ["1", "2"]
      (st0 [nodeW, node2W]) (st0 [nodeW, node2W])
      { total := 2, skipped := 2, created := 0, updated := 0, deleted := 0 } rfl rfl rfl⟩

/-- Counterexample for C1 as stated: with `cfgNC` — whose extraction
functions are stable and mutually consistent — a completed first run over
one item and one matching-text node reports `updated = 1`, and the second
run, immediately after and with no external changes, again reports
`updated = 1` and `skipped = 0 ≠ 1 = total`, because the payload's child
is never materialised (no children reconciler) so the node never becomes
structurally unchanged. -/
theorem claim_C1_counterexample :
    reconcile (noFail String "root") cfgNC none "root" ["1"]
        (st0 [RoamNode.mk "task" "u1" none]) =
      (st0 [RoamNode.mk "task" "u1" none],
        Except.ok { total := 1, skipped := 0, created := 0, updated := 1, deleted := 0 }) ∧
    (reconcile (noFail String "root") cfgNC none "root" ["1"]
        ((reconcile (noFail String "root") cfgNC none "root" ["1"]
          (st0 [RoamNode.mk "task" "u1" none])).1)).2 =
      Except.ok { total := 1, skipped := 0, created := 0, updated := 1, deleted := 0 } ∧
    ({ total := 1, skipped := 0, created := 0, updated := 1, deleted := 0 } : SyncStats).updated ≠ 0 ∧
    ({ total := 1, skipped := 0, created := 0, updated := 1, deleted := 0 } : SyncStats).skipped ≠
      ({ total := 1, skipped := 0, created := 0, updated := 1, deleted := 0 } : SyncStats).total :=
  ⟨rfl, rfl, by decide, by decide⟩
